import Mathlib

/-!
Shallow embedding of the core of the `bricks` repository: the open-addressing
hash-set engines and the bit-level substrate from `brick-hashset.h` and
`brick-bitlevel.h`.  Machine integers (`hash64_t`, `size_t`, `uint32_t`,
`uint64_t`) are modelled as `Nat` with explicit `% 2 ^ 64` (resp. `% 2 ^ 32`)
at the points where the C++ arithmetic can wrap.  Fatal paths
(`ASSERT_UNREACHABLE`, failed `ASSERT_EQ`) are modelled by `Option` with
`none` as the fatal outcome.  Atomic cells are given their sequential
(single-thread, sequentially consistent) semantics.
-/

namespace Bricks

/-! ### Bit-level primitives (`brick-bitlevel.h`) -/

/-- `bitshift(t, shift)` from `brick-bitlevel.h`.  On little-endian targets the
source computes `bswap_64(shift < 0 ? bswap_64(t << -shift) : bswap_64(t >> shift))`;
the two byte swaps cancel, leaving a plain 64-bit shift (left for negative
`shift`, logical right otherwise).  The left shift wraps modulo `2 ^ 64`. -/
def bitshift (t : Nat) (s : Int) : Nat :=
  if s < 0 then (t <<< (-s).toNat) % 2 ^ 64 else t >>> s.toNat

/-- `mask(first, count)` from `brick-bitlevel.h`:
`bitshift(uint64_t(-1), -first) & bitshift(uint64_t(-1), 64 - first - count)`. -/
def mask (first count : Nat) : Nat :=
  bitshift (2 ^ 64 - 1) (-(first : Int)) &&&
    bitshift (2 ^ 64 - 1) ((64 : Int) - (first : Int) - (count : Int))

/-- Memory as an unbounded array of 32-bit words (the base pointers of
`BitPointer` are word-aligned; `word()` reads 32 bits, `dword()` 64 bits). -/
def Mem : Type := Nat → Nat

/-- Write one 32-bit word of a memory. -/
def memSet (m : Mem) (i v : Nat) : Mem :=
  fun j => if j = i then v else m j

/-- `BitPointer`: a word-aligned base (index into 32-bit words) plus a bit
offset; `normalize()` keeps the offset in `[0, 32)`. -/
structure BitPtr where
  word : Nat
  off : Nat

/-- Absolute bit position of a bit pointer. -/
def BitPtr.pos (p : BitPtr) : Nat := 32 * p.word + p.off

/-- `BitPointer::shift(bits)` followed by `normalize()`. -/
def BitPtr.advance (p : BitPtr) (w : Nat) : BitPtr :=
  ⟨p.word + (p.off + w) / 32, (p.off + w) % 32⟩

/-- `dword()`: the 64-bit little-endian view of two consecutive 32-bit words. -/
def dwordAt (m : Mem) (i : Nat) : Nat :=
  m i + 2 ^ 32 * m (i + 1)

/-- Store a 64-bit value through `dword()`: low half to word `i`, high half to
word `i + 1`. -/
def setDword (m : Mem) (i d : Nat) : Mem :=
  memSet (memSet m i (d % 2 ^ 32)) (i + 1) (d / 2 ^ 32 % 2 ^ 32)

/-- Bit `p % 32` of word `p / 32`: the bit a `BitPointer` with absolute
position `p` addresses. -/
def memTestBit (m : Mem) (p : Nat) : Bool :=
  (m (p / 32)).testBit (p % 32)

/-- The loop of `bitcopy(from, to, bitcount)` from `brick-bitlevel.h`,
reading from `src` and writing into `dst` (the source and destination objects
are distinct).  One fuel unit is spent per iteration; every iteration copies
`w = min(32 - from.bitoffset(), bitcount) ≥ 1` bits for a normalized source
pointer, so `bitcount` units of fuel suffice. -/
def bitcopyF : Nat → Mem → BitPtr → Mem → BitPtr → Nat → Mem
  | 0, _, _, dst, _, _ => dst
  | fuel + 1, src, f, dst, t, n =>
    if n = 0 then dst
    else
      let w := min (32 - f.off) n
      let fmask := mask f.off w % 2 ^ 32
      let tmask := mask t.off w
      let bits := bitshift (src f.word &&& fmask) ((f.off : Int) - (t.off : Int))
      let dst' :=
        if 32 < t.off + n then
          setDword dst t.word ((dwordAt dst t.word &&& ((2 ^ 64 - 1) ^^^ tmask)) ||| bits)
        else
          memSet dst t.word
            ((dst t.word &&& ((2 ^ 32 - 1) ^^^ tmask % 2 ^ 32)) ||| bits % 2 ^ 32)
      bitcopyF fuel src (f.advance w) dst' (t.advance w) (n - w)

/-- `bitcopy(from, to, bitcount)`. -/
def bitcopy (src : Mem) (f : BitPtr) (dst : Mem) (t : BitPtr) (n : Nat) : Mem :=
  bitcopyF n src f dst t n

/-- The runtime `fill(x)` of `brick-bitlevel.h` for a 64-bit `number`: the
loop `x |= x >> r; r <<= 1` runs for `r = 1, 2, 4, 8, 16, 32`. -/
def fill (x : Nat) : Nat :=
  if x = 0 then 0
  else
    let x1 := x ||| x >>> 1
    let x2 := x1 ||| x1 >>> 2
    let x3 := x2 ||| x2 >>> 4
    let x4 := x3 ||| x3 >>> 8
    let x5 := x4 ||| x4 >>> 16
    x5 ||| x5 >>> 32

/-! ### Cell variants (`brick-hashset.h`) -/

/-- `FastCell`: a value together with its full stored 64-bit hash; the cell is
empty iff the stored hash is zero. -/
structure Cell (α : Type) where
  value : α
  hash : Nat
deriving DecidableEq

/-- A default-constructed (`Cell()`) cell: zero hash, default value. -/
def emptyCellF {α : Type} [Inhabited α] : Cell α := ⟨default, 0⟩

/-- `FastCell::is(v, hash, hasher)`: `_hash == hash && hasher.equal(_value, v)`.
Per the hasher contract (`equal` consistent with hash equality) equality of
values is used for `equal`. -/
def Cell.is {α : Type} [DecidableEq α] (c : Cell α) (v : α) (h : Nat) : Bool :=
  c.hash == h && c.value == v

/-- `FastAtomicCell`: an atomic `hashLock` word plus a separately stored
value. -/
structure FastAtomicCell (α : Type) where
  hashLock : Nat
  value : α
deriving DecidableEq

/-- The word installed by the winning CAS in `FastAtomicCell::tryStore`:
after `hash |= 0x1`, the CAS writes `(hash << 2) | 1` (writing state). -/
def facWritingWord (h : Nat) : Nat :=
  (((h ||| 1) <<< 2) % 2 ^ 64) ||| 1

/-- The word left by the final exchange in `FastAtomicCell::tryStore`:
after `hash |= 0x1`, the exchange writes `hash << 2` (valid state). -/
def facValidWord (h : Nat) : Nat :=
  ((h ||| 1) <<< 2) % 2 ^ 64

/-- `FastAtomicCell::tryStore(v, hash)` under sequential semantics: the CAS
from 0 succeeds iff `hashLock = 0`; then the value is stored and the lock word
exchanged to the valid word. -/
def FastAtomicCell.tryStore {α : Type} (c : FastAtomicCell α) (v : α) (h : Nat) :
    FastAtomicCell α × Bool :=
  if c.hashLock = 0 then
    let c1 : FastAtomicCell α := { c with hashLock := facWritingWord h }
    let c2 : FastAtomicCell α := { c1 with value := v }
    ({ c2 with hashLock := facValidWord h }, true)
  else (c, false)

/-- `FastAtomicCell::fetch()`. -/
def FastAtomicCell.fetch {α : Type} (c : FastAtomicCell α) : α := c.value

/-- The `Tagged< T >` word of `AtomicCell` for an integral value type:
a value `t` plus a tag. -/
structure TaggedVal where
  t : Nat
  tag : Nat
deriving DecidableEq

/-- `AtomicCell::empty()`: `!value.load().t` — decided by the value alone. -/
def atomicCellEmpty (c : TaggedVal) : Bool := c.t == 0

/-- `AtomicCell::invalid()`:
`(v.tag() == 0 && v.t) || (v.tag() != 0 && !v.t)`. -/
def atomicCellInvalid (c : TaggedVal) : Bool :=
  (c.tag == 0 && !(c.t == 0)) || (!(c.tag == 0) && c.t == 0)

/-- `AtomicCell::hashToTag(hash)` with the default 16 tag bits of
`Tagged< T >`. -/
def hashToTag (h : Nat) (bits : Nat) : Nat :=
  (h >>> (64 - bits)) ||| 1

/-- `AtomicCell::invalidate()`: sets the tag to 0 if it was nonzero and to 1
if it was zero, exchanges, and returns the old contents.  First component:
the new stored word; second: the returned old word. -/
def atomicCellInvalidate (c : TaggedVal) : TaggedVal × TaggedVal :=
  ({ c with tag := if c.tag ≠ 0 then 0 else 1 }, c)

/-- `AtomicCell::tryStore(b, hash)` under sequential semantics: CAS of the
whole word from the zero word to the tagged value. -/
def atomicCellTryStore (c : TaggedVal) (b h : Nat) : TaggedVal × Bool :=
  if c = ⟨0, 0⟩ then ({ t := b, tag := hashToTag h 16 }, true) else (c, false)

/-- States of an `AtomicCell` word reachable from the initial
(zero-initialised) cell by `tryStore` and `invalidate`. -/
inductive AtomicReach : TaggedVal → Prop
  | init : AtomicReach ⟨0, 0⟩
  | store {c : TaggedVal} (b h : Nat) :
      AtomicReach c → AtomicReach (atomicCellTryStore c b h).1
  | inval {c : TaggedVal} :
      AtomicReach c → AtomicReach (atomicCellInvalidate c).1

/-- `CompactCell::empty()` for an integral value type: `!_value`. -/
def compactEmpty (value : Nat) : Bool := value == 0

/-! ### Probing (`HashSetBase`) -/

/-- `maxcollisions = 1 << 16`. -/
def maxcollisions : Nat := 2 ^ 16

/-- `HashSetBase::index(h, i, mask)`.  `tb` is `threshMSB`, i.e.
`thresh = 2 ^ tb` (with `thresh = cacheLine / sizeof(Cell)`; the spec's `T`).
`h &= ~hash64_t(thresh - 1)` is 64-bit bitwise complement, and the `size_t`
additions wrap modulo `2 ^ 64`; the intermediate wraps are absorbed by the
final `% 2 ^ 64` before masking. -/
def index (tb h i mask : Nat) : Nat :=
  let thresh := 2 ^ tb
  let h' := h &&& ((2 ^ 64 - 1) ^^^ (thresh - 1))
  if i < thresh then
    ((h' + i) % 2 ^ 64) &&& mask
  else
    let j := i &&& (thresh - 1)
    let q := i >>> tb
    let hop := ((2 * 1 + 1) * q + 2 * 1 * (q * q)) <<< tb
    ((h' + j + hop) % 2 ^ 64) &&& mask

/-- The probe-index formula claimed by the specification for `i ≥ T`
(`T = 8`): `(h + r + ((2q+1) + 2q²)·T) & mask` with `q = i >> log2(T)`,
`r = i & (T−1)`. -/
def specIndexFar (h i mask : Nat) : Nat :=
  ((h + i % 8 + ((2 * (i / 8) + 1) + 2 * (i / 8) * (i / 8)) * 8) % 2 ^ 64) &&& mask

/-! ### The single-threaded engine (`_HashSet`) -/

/-- `_HashSet` state: `_table`, `_used`, `_bits`.  `_maxsize` is the
constructor default `size_t(-1) = 2 ^ 64 - 1` and `_growing` is only true
inside `grow`, which is modelled as a separate function. -/
structure HashSet (α : Type) where
  table : List (Cell α)
  used : Nat
  bits : Nat
deriving DecidableEq

/-- The growth trigger of `_HashSet::insertHinted`:
`!_growing && size_t(_used) > (size() / 100) * 75` (integer division). -/
def growTrigger (growing : Bool) (used size : Nat) : Bool :=
  !growing && decide (used > size / 100 * 75)

/-- `_table[idx]` (the invariants keep every probed index in bounds). -/
def cellAt {α : Type} [Inhabited α] (tbl : List (Cell α)) (idx : Nat) : Cell α :=
  tbl.getD idx emptyCellF

/-- The probe loop shared by `findHinted` and `insertHinted`: starting from
attempt `i` with `fuel` attempts left, return the first attempt index that
hits an empty cell (`true`) or a matching cell (`false`), or `none` if the
collision budget is exhausted. -/
def probeFirst {α : Type} [DecidableEq α] [Inhabited α] (tb : Nat) (tbl : List (Cell α))
    (bits : Nat) (item : α) (h : Nat) : Nat → Nat → Option (Nat × Bool)
  | 0, _ => none
  | fuel + 1, i =>
    let c := cellAt tbl (index tb h i bits)
    if c.hash = 0 then some (i, true)
    else if c.is item h then some (i, false)
    else probeFirst tb tbl bits item h fuel (i + 1)

/-- The probe-and-store body of `_HashSet::insertHinted(item, h, table, used)`
(everything after the growth trigger): `none` when `maxcollisions` probes
fail, otherwise the updated table and `used` plus the `isnew` flag. -/
def insertCore {α : Type} [DecidableEq α] [Inhabited α] (tb : Nat) (tbl : List (Cell α))
    (bits used : Nat) (item : α) (h : Nat) : Option (List (Cell α) × Nat × Bool) :=
  match probeFirst tb tbl bits item h maxcollisions 0 with
  | some (i, true) => some (tbl.set (index tb h i bits) ⟨item, h⟩, used + 1, true)
  | some (_, false) => some (tbl, used, false)
  | none => none

/-- The rehash loop of `_HashSet::grow`: re-insert every non-empty cell of the
old table into the fresh table (`cell.hash(hasher)` of a `FastCell` is the
stored `_hash`).  During growth `_growing` is true, so the growth trigger of
the inner `insertHinted` is statically false; a probe failure would call
`grow` recursively and hit `ASSERT_UNREACHABLE`, modelled as `none`. -/
def rehashList {α : Type} [DecidableEq α] [Inhabited α] (tb bits : Nat) :
    List (Cell α) → List (Cell α) → Nat → Option (List (Cell α) × Nat)
  | [], tbl, used => some (tbl, used)
  | c :: cs, tbl, used =>
    if c.hash = 0 then rehashList tb bits cs tbl used
    else
      match insertCore tb tbl bits used c.value c.hash with
      | some (tbl', used', _) => rehashList tb bits cs tbl' used'
      | none => none

/-- `_HashSet::grow()`: fails fatally (`none`) if `2 * size() ≥ _maxsize`,
otherwise doubles the table, re-derives the mask via `_bits |= _bits << 1`,
rehashes every non-empty cell and checks `ASSERT_EQ(used, _used)`. -/
def grow {α : Type} [DecidableEq α] [Inhabited α] (tb : Nat) (s : HashSet α) :
    Option (HashSet α) :=
  if 2 * s.table.length ≥ 2 ^ 64 - 1 then none
  else
    match rehashList tb (s.bits ||| (s.bits <<< 1)) s.table
        (List.replicate (2 * s.table.length) emptyCellF) 0 with
    | some (tbl', used') =>
        if used' = s.used then some ⟨tbl', s.used, s.bits ||| (s.bits <<< 1)⟩ else none
    | none => none

/-- `_HashSet::insertHinted(item, h)`: trigger `grow` when the load check
fires, then probe; when the collision budget is exhausted, grow and retry.
The retry is fuelled; each retry doubles the table, so the fuel only runs out
(`none`) after the fatal `_maxsize` check would have fired anyway. -/
def insertHinted {α : Type} [DecidableEq α] [Inhabited α] (tb : Nat) :
    Nat → HashSet α → α → Nat → Option (HashSet α × Bool)
  | 0, _, _, _ => none
  | fuel + 1, s, item, h =>
    match (if growTrigger false s.used s.table.length then grow tb s else some s) with
    | none => none
    | some s1 =>
      match insertCore tb s1.table s1.bits s1.used item h with
      | some (tbl', used', isnew) => some ({ s1 with table := tbl', used := used' }, isnew)
      | none =>
        match grow tb s1 with
        | some s2 => insertHinted tb fuel s2 item h
        | none => none

/-- `_HashSet::findHinted(item, hash)` reduced to validity of the returned
iterator: `true` iff the probe loop hits a matching cell before an empty cell
or exhaustion. -/
def findHinted {α : Type} [DecidableEq α] [Inhabited α] (tb : Nat) (s : HashSet α)
    (item : α) (h : Nat) : Bool :=
  match probeFirst tb s.table s.bits item h maxcollisions 0 with
  | some (_, false) => true
  | _ => false

/-- The loop of `_HashSet::setSize`: `while ((s = s >> 1)) _bits |= s`.
One fuel unit per iteration; `s` halves every iteration, so `s` units
suffice. -/
def setBitsLoop : Nat → Nat → Nat → Nat
  | 0, _, bits => bits
  | fuel + 1, s, bits =>
    if s / 2 = 0 then bits else setBitsLoop fuel (s / 2) (bits ||| s / 2)

/-- The `_bits` value computed by `_HashSet::setSize(s)`. -/
def bitsOf (s : Nat) : Nat := setBitsLoop s s 0

/-- `_HashSet::setSize(s)` in the constructor (empty-table) context: `_bits`
from the shift loop, table resized to `_bits + 1` zero-initialised cells. -/
def setSize (α : Type) [Inhabited α] (n : Nat) : HashSet α :=
  ⟨List.replicate (bitsOf n + 1) emptyCellF, 0, bitsOf n⟩

/-- The default-constructed `_HashSet` (`initial = 32`, `_used = 0`). -/
def initHS (α : Type) [Inhabited α] : HashSet α := setSize α 32

/-- A sequence of `insert(v)` calls (`insertHinted(v, hash(v))`). -/
def runInserts {α : Type} [DecidableEq α] [Inhabited α] (tb fuel : Nat) (hf : α → Nat) :
    HashSet α → List α → Option (HashSet α)
  | s, [] => some s
  | s, v :: vs =>
    match insertHinted tb fuel s v (hf v) with
    | some (s', _) => runInserts tb fuel hf s' vs
    | none => none

/-- As `runInserts`, also collecting the `isnew()` flag of each returned
iterator. -/
def runInsertsFlags {α : Type} [DecidableEq α] [Inhabited α] (tb fuel : Nat) (hf : α → Nat) :
    HashSet α → List α → Option (HashSet α × List Bool)
  | s, [] => some (s, [])
  | s, v :: vs =>
    match insertHinted tb fuel s v (hf v) with
    | some (s', b) =>
      match runInsertsFlags tb fuel hf s' vs with
      | some (s'', bs) => some (s'', b :: bs)
      | none => none
    | none => none

/-! ### Specification predicates for the single-threaded engine -/

/-- Cell `idx` of `tbl` is occupied and stores `v`. -/
def holdsV {α : Type} [Inhabited α] (tbl : List (Cell α)) (idx : Nat) (v : α) : Prop :=
  (cellAt tbl idx).hash ≠ 0 ∧ (cellAt tbl idx).value = v

/-- Some cell of `tbl` is occupied with `v`. -/
def containsT {α : Type} [Inhabited α] (tbl : List (Cell α)) (v : α) : Prop :=
  ∃ idx, idx < tbl.length ∧ holdsV tbl idx v

/-- The probe-chain property of an occupied cell: it sits at some attempt
index `i < maxcollisions` of the probe sequence of its stored hash, with all
earlier attempts hitting occupied cells. -/
def chainAt {α : Type} [Inhabited α] (tb : Nat) (tbl : List (Cell α)) (bits idx : Nat) : Prop :=
  ∃ i, i < maxcollisions ∧ index tb (cellAt tbl idx).hash i bits = idx ∧
    ∀ k, k < i → (cellAt tbl (index tb (cellAt tbl idx).hash k bits)).hash ≠ 0

/-- The inductive invariant of the single-threaded engine: power-of-two
geometry with an all-ones mask, hash-consistent occupied cells each satisfying
the probe-chain property, no value stored twice, and `_used` counting the
occupied cells. -/
def Inv {α : Type} [Inhabited α] (hf : α → Nat) (tb : Nat) (tbl : List (Cell α))
    (bits used : Nat) : Prop :=
  (∃ k, 1 ≤ k ∧ bits = 2 ^ k - 1 ∧ tbl.length = 2 ^ k) ∧
  (∀ idx, idx < tbl.length → (cellAt tbl idx).hash ≠ 0 →
    (cellAt tbl idx).hash = hf (cellAt tbl idx).value ∧ chainAt tb tbl bits idx) ∧
  (∀ i1 i2, i1 < tbl.length → i2 < tbl.length → (cellAt tbl i1).hash ≠ 0 →
    (cellAt tbl i2).hash ≠ 0 → (cellAt tbl i1).value = (cellAt tbl i2).value → i1 = i2) ∧
  used = (tbl.filter fun c => c.hash != 0).length

/-- `Inv` on a `HashSet` state. -/
def InvS {α : Type} [Inhabited α] (hf : α → Nat) (tb : Nat) (s : HashSet α) : Prop :=
  Inv hf tb s.table s.bits s.used

/-! ### The concurrent engine (`_ConcurrentHashSet`): sizing -/

/-- `_ConcurrentHashSet::nextSize(s)`: the geometric growth schedule. -/
def nextSize (s : Nat) : Nat :=
  if s < 512 * 1024 then s * 16
  else if s < 16 * 1024 * 1024 then s * 8
  else if s < 32 * 1024 * 1024 then s * 4
  else s * 2

/-- The loop of `_ConcurrentHashSet::setSize`:
`toSet = 1; while (nextSize(toSet) < s) toSet <<= 1`.  One fuel unit per
iteration; starting from 1, `nextSize(2 ^ 63) = 2 ^ 64` bounds any `size_t`
target, so 64 units suffice. -/
def toSetLoop : Nat → Nat → Nat → Nat
  | 0, _, t => t
  | fuel + 1, s, t => if nextSize t < s then toSetLoop fuel s (2 * t) else t

/-- `_ConcurrentHashSet::setSize(n)`: the reserved size of row 0, i.e.
`s = fill(s - 1) + 1` (with `size_t` wrap-around) followed by the doubling
loop.  Row 0 itself is never allocated; the first allocated row receives
`nextSize` of this value. -/
def conSetSize (n : Nat) : Nat :=
  toSetLoop 64 ((fill ((n + (2 ^ 64 - 1)) % 2 ^ 64) + 1) % 2 ^ 64) 1

/-! ### Generic bit-level lemmas -/

theorem testBit_true_of_bounds {k x : Nat} (h1 : 2 ^ k ≤ x) (h2 : x < 2 ^ (k + 1)) :
    x.testBit k = true := by
  rw [Nat.testBit_to_div_mod]
  have hdiv : x / 2 ^ k = 1 := by
    apply Nat.div_eq_of_lt_le (by simpa using h1)
    simpa [Nat.two_mul, Nat.pow_succ, Nat.mul_comm] using h2
  simp [hdiv]

theorem testBit_false_of_lt {k x j : Nat} (h1 : x < 2 ^ k) (h2 : k ≤ j) :
    x.testBit j = false :=
  Nat.testBit_lt_two_pow (lt_of_lt_of_le h1 (Nat.pow_le_pow_right (by norm_num) h2))

theorem or_fill_eq {k x : Nat} (h1 : 2 ^ k ≤ x) (h2 : x < 2 ^ (k + 1)) :
    x ||| (2 ^ k - 1) = 2 ^ (k + 1) - 1 := by
  apply Nat.eq_of_testBit_eq
  intro j
  rw [Nat.testBit_or, Nat.testBit_two_pow_sub_one, Nat.testBit_two_pow_sub_one]
  rcases lt_trichotomy j k with hj | hj | hj
  · simp [hj, Nat.lt_succ_of_lt hj]
  · subst hj
    simp [testBit_true_of_bounds h1 h2]
  · rw [testBit_false_of_lt h2 hj]
    simp [Nat.not_lt.2 (Nat.le_of_lt hj), Nat.not_lt.2 hj]

theorem or_shift_double {k : Nat} (hk : 1 ≤ k) :
    (2 ^ k - 1) ||| ((2 ^ k - 1) <<< 1) = 2 ^ (k + 1) - 1 := by
  apply Nat.eq_of_testBit_eq
  intro j
  rw [Nat.testBit_or, Nat.testBit_shiftLeft, Nat.testBit_two_pow_sub_one,
    Nat.testBit_two_pow_sub_one, Nat.testBit_two_pow_sub_one]
  rcases Nat.eq_zero_or_pos j with hj | hj
  · subst hj
    have hkpos : 0 < k := hk
    simp [hkpos]
  · have h1 : (decide (j ≥ 1) : Bool) = true := by simpa using hj
    rw [h1, Bool.true_and]
    rcases Nat.lt_or_ge j (k + 1) with hlt | hge
    · have hd : j - 1 < k := by omega
      simp [hd, hlt]
    · have e1 : ¬ j < k := by omega
      have e2 : ¬ j - 1 < k := by omega
      have e3 : ¬ j < k + 1 := by omega
      simp [e1, e2, e3]

/-! ### `setSize` and `grow` geometry (`_HashSet`) -/

theorem setBitsLoop_spec : ∀ fuel s bits : Nat, 2 ≤ s → s ≤ fuel →
    setBitsLoop fuel s bits = bits ||| (2 ^ Nat.log2 s - 1) := by
  intro fuel
  induction fuel with
  | zero => intro s bits hs hf; omega
  | succ fuel ih =>
    intro s bits hs hf
    rw [setBitsLoop]
    have hs2 : ¬ s / 2 = 0 := by omega
    rw [if_neg hs2]
    have hlog : Nat.log2 s = Nat.log2 (s / 2) + 1 := by
      conv_lhs => rw [Nat.log2]
      rw [if_pos hs]
    by_cases hs4 : 2 ≤ s / 2
    · rw [ih (s / 2) _ hs4 (by omega), hlog]
      rw [Nat.or_assoc]
      congr 1
      exact or_fill_eq (Nat.log2_self_le (by omega)) ((Nat.log2_lt (by omega)).1 (Nat.lt_succ_self _))
    · have h1 : s / 2 = 1 := by omega
      have hfuel : 1 ≤ fuel := by omega
      obtain ⟨fuel', rfl⟩ : ∃ fuel', fuel = fuel' + 1 := ⟨fuel - 1, by omega⟩
      rw [setBitsLoop, h1]
      rw [if_pos (by omega : 1 / 2 = 0)]
      have hl1 : Nat.log2 1 = 0 := by rw [Nat.log2]; norm_num
      rw [hlog, h1, hl1]
      norm_num

theorem bitsOf_spec {n : Nat} (hn : 2 ≤ n) : bitsOf n = 2 ^ Nat.log2 n - 1 := by
  have := setBitsLoop_spec n n 0 hn (le_refl n)
  simpa [bitsOf] using this

theorem insertCore_length {α : Type} [DecidableEq α] [Inhabited α]
    {tb : Nat} {tbl tbl' : List (Cell α)} {bits used used' : Nat} {item : α} {h : Nat}
    {isnew : Bool} (hc : insertCore tb tbl bits used item h = some (tbl', used', isnew)) :
    tbl'.length = tbl.length := by
  unfold insertCore at hc
  rcases hp : probeFirst tb tbl bits item h maxcollisions 0 with _ | ⟨i, b⟩
  · rw [hp] at hc; exact absurd hc (by simp)
  · rw [hp] at hc
    cases b
    · simp only at hc
      cases hc
      rfl
    · simp only at hc
      cases hc
      simp

theorem rehashList_length {α : Type} [DecidableEq α] [Inhabited α]
    {tb bits : Nat} : ∀ {cs tbl tbl' : List (Cell α)} {used used' : Nat},
    rehashList tb bits cs tbl used = some (tbl', used') → tbl'.length = tbl.length := by
  intro cs
  induction cs with
  | nil =>
    intro tbl tbl' used used' hr
    unfold rehashList at hr
    cases hr
    rfl
  | cons c cs ih =>
    intro tbl tbl' used used' hr
    unfold rehashList at hr
    by_cases hc : c.hash = 0
    · rw [if_pos hc] at hr
      exact ih hr
    · rw [if_neg hc] at hr
      rcases hi : insertCore tb tbl bits used c.value c.hash with _ | ⟨tbl1, used1, isnew⟩
      · rw [hi] at hr; exact absurd hr (by simp)
      · rw [hi] at hr
        simp only at hr
        rw [ih hr, insertCore_length hi]

theorem grow_geometry {α : Type} [DecidableEq α] [Inhabited α]
    {tb : Nat} {s s' : HashSet α} {k : Nat} (hk : 1 ≤ k) (hbits : s.bits = 2 ^ k - 1)
    (hlen : s.table.length = 2 ^ k) (hg : grow tb s = some s') :
    s'.bits = s.bits ||| (s.bits <<< 1) ∧ s'.bits = 2 ^ (k + 1) - 1 ∧
      s'.table.length = 2 * s.table.length ∧ s'.bits + 1 = s'.table.length := by
  unfold grow at hg
  rcases Nat.lt_or_ge (2 * s.table.length) (2 ^ 64 - 1) with hsz | hsz
  · rw [if_neg (by omega)] at hg
    rcases hr : rehashList tb (s.bits ||| s.bits <<< 1) s.table
        (List.replicate (2 * s.table.length) emptyCellF) 0 with _ | ⟨tbl', used'⟩
    · rw [hr] at hg; exact absurd hg (by simp)
    · rw [hr] at hg
      simp only at hg
      by_cases hu : used' = s.used
      · rw [if_pos hu] at hg
        cases hg
        have hb2 : s.bits ||| s.bits <<< 1 = 2 ^ (k + 1) - 1 := by
          rw [hbits]; exact or_shift_double hk
        have hlen' : tbl'.length = 2 * s.table.length := by
          rw [rehashList_length hr]; simp
        refine ⟨rfl, hb2, hlen', ?_⟩
        show (s.bits ||| s.bits <<< 1) + 1 = tbl'.length
        rw [hb2, hlen', hlen]
        have hp : 1 ≤ 2 ^ k := Nat.one_le_two_pow
        rw [Nat.pow_succ]
        omega
      · rw [if_neg hu] at hg
        exact absurd hg (by simp)
  · rw [if_pos (by omega)] at hg
    exact absurd hg (by simp)

/-- C10: after `setSize(n)` with `n ≥ 2` the table size is `2 ^ ⌊log2 n⌋`
(never rounded up, so at most `n`), the probe mask `_bits` is the all-ones
mask `size − 1`, and `grow` preserves the invariant: it doubles the table and
re-derives the mask via `_bits |= _bits << 1`, turning `2 ^ k − 1` into
`2 ^ (k+1) − 1`. -/
theorem setSize_pow_two_and_grow_preserves (α : Type) [DecidableEq α] [Inhabited α]
    (n : Nat) (hn : 2 ≤ n) :
    bitsOf n = 2 ^ Nat.log2 n - 1 ∧
    (setSize α n).table.length = 2 ^ Nat.log2 n ∧
    2 ^ Nat.log2 n ≤ n ∧
    (setSize α n).bits + 1 = (setSize α n).table.length ∧
    (∀ (tb : Nat) (s s' : HashSet α) (k : Nat), 1 ≤ k → s.bits = 2 ^ k - 1 →
      s.table.length = 2 ^ k → grow tb s = some s' →
      s'.bits = s.bits ||| (s.bits <<< 1) ∧ s'.bits = 2 ^ (k + 1) - 1 ∧
        s'.table.length = 2 * s.table.length ∧ s'.bits + 1 = s'.table.length) := by
  have hb := bitsOf_spec hn
  have hpow : 1 ≤ 2 ^ Nat.log2 n := Nat.one_le_two_pow
  refine ⟨hb, ?_, Nat.log2_self_le (by omega), ?_, ?_⟩
  · simp only [setSize, List.length_replicate, hb]
    omega
  · simp [setSize]
  · intro tb s s' k hk hbits hlen hg
    exact grow_geometry hk hbits hlen hg

/-- Witness for `setSize_pow_two_and_grow_preserves` at `n = 6` (not a power
of two: the table is rounded down to 4 cells). -/
theorem setSize_pow_two_witness :
    2 ≤ 6 ∧
    (bitsOf 6 = 2 ^ Nat.log2 6 - 1 ∧
    (setSize Nat 6).table.length = 2 ^ Nat.log2 6 ∧
    2 ^ Nat.log2 6 ≤ 6 ∧
    (setSize Nat 6).bits + 1 = (setSize Nat 6).table.length ∧
    (∀ (tb : Nat) (s s' : HashSet Nat) (k : Nat), 1 ≤ k → s.bits = 2 ^ k - 1 →
      s.table.length = 2 ^ k → grow tb s = some s' →
      s'.bits = s.bits ||| (s.bits <<< 1) ∧ s'.bits = 2 ^ (k + 1) - 1 ∧
        s'.table.length = 2 * s.table.length ∧ s'.bits + 1 = s'.table.length)) :=
  ⟨by norm_num, setSize_pow_two_and_grow_preserves Nat 6 (by norm_num)⟩

/-! ### The probe schedule (C3) -/

/-- C3 counterexample: at `h = 1`, `i = 16`, `mask = 2 ^ 20 − 1` the code's
probe index is 112 (the hop coefficient is `3q + 2q²` and `h` is masked by
`~(T−1)` in the far regime too), while the claimed formula
`(h + r + ((2q+1) + 2q²)·T) & mask` yields 105. -/
theorem probe_schedule_cex :
    index 3 1 16 (2 ^ 20 - 1) = 112 ∧
    specIndexFar 1 16 (2 ^ 20 - 1) = 105 ∧ (112 : Nat) ≠ 105 := by
  refine ⟨by decide, by decide, by norm_num⟩

/-- C3 (amended): for `T = 8` the probe index is
`((h & ~(T−1)) + i) & mask` for `i < T`, and
`((h & ~(T−1)) + r + (3q + 2q²)·T) & mask` (with the 64-bit sum wrapping)
for `i ≥ T`, where `q = i >> log2 T` and `r = i & (T−1)`. -/
theorem probe_schedule (h i mask : Nat) :
    (i < 8 → index 3 h i mask = ((h &&& (2 ^ 64 - 8)) + i) &&& mask) ∧
    (8 ≤ i → index 3 h i mask =
      (((h &&& (2 ^ 64 - 8)) + i % 8 + (3 * (i / 8) + 2 * (i / 8) * (i / 8)) * 8) % 2 ^ 64)
        &&& mask) := by
  have hC : (2 ^ 64 - 1) ^^^ ((2 : Nat) ^ 3 - 1) = 2 ^ 64 - 8 := by decide
  have hand : h &&& (2 ^ 64 - 8) ≤ 2 ^ 64 - 8 := Nat.and_le_right
  constructor
  · intro hi
    simp only [index, hC]
    rw [if_pos (by norm_num [hi] : i < 2 ^ 3)]
    rw [Nat.mod_eq_of_lt (by omega)]
  · intro hi
    simp only [index, hC]
    rw [if_neg (by norm_num [hi] : ¬ i < 2 ^ 3)]
    have hj : i &&& ((2 : Nat) ^ 3 - 1) = i % 8 := by
      rw [Nat.and_pow_two_sub_one_eq_mod]
    have hq : i >>> 3 = i / 8 := by
      rw [Nat.shiftRight_eq_div_pow]
    rw [hj, hq, Nat.shiftLeft_eq]
    norm_num
    congr 2
    ring

/-! ### The growth trigger (C4) -/

/-- C4: the code's growth trigger is
`!_growing && used > (size() / 100) * 75` with integer division, so a table
of size 32 with a single used cell (load ≈ 3 %, far below 75 %) already
triggers `grow` on the next insert: inserting into such a table doubles it to
64 cells.  This contradicts the documented 75 % threshold. -/
theorem growth_trigger_code_bug :
    growTrigger false 1 32 = true ∧ 1 * 100 ≤ 75 * 32 ∧
    (insertHinted 3 2
        (⟨(List.replicate 32 (emptyCellF : Cell Nat)).set 0 ⟨1, 2⟩, 1, 31⟩ : HashSet Nat)
        2 3).map (fun r => r.1.table.length) = some 64 := by
  refine ⟨by decide, by norm_num, by decide⟩

/-! ### The atomic-fast cell (C5) -/

/-- C5 counterexample: `tryStore` first does `hash |= 0x1`, so for the even
hash 2 a winning `tryStore` leaves `hash_lock = ((2|1) << 2) = 12`, not
`2 << 2 = 8`, and its CAS writes `((2|1) << 2) | 1 = 13`, not
`(2 << 2) | 1 = 9`. -/
theorem fast_atomic_cell_cex :
    (FastAtomicCell.tryStore (⟨0, 0⟩ : FastAtomicCell Nat) 5 2).1.hashLock = 12 ∧
    ((2 : Nat) <<< 2) % 2 ^ 64 = 8 ∧ facWritingWord 2 = 13 ∧
    (((2 : Nat) <<< 2) ||| 1) = 9 ∧ (12 : Nat) ≠ 8 := by
  refine ⟨by decide, by decide, by decide, by decide, by norm_num⟩

/-- C5 (amended): a winning `tryStore(v, h)` CASes `hash_lock` from 0 to
`((h|1) << 2) | 1`, stores `v`, and exchanges `hash_lock` to `(h|1) << 2`;
afterwards `hash_lock = (h|1) << 2` (valid: low two bits clear), `fetch()`
returns `v`, and `tryStore` returns true exactly when its CAS observed
`hash_lock == 0`. -/
theorem fast_atomic_cell_try_store {α : Type} (c : FastAtomicCell α) (v : α) (h : Nat) :
    ((c.tryStore v h).2 = true ↔ c.hashLock = 0) ∧
    (c.hashLock = 0 →
      (c.tryStore v h).1.hashLock = facValidWord h ∧
      facValidWord h = ((h ||| 1) <<< 2) % 2 ^ 64 ∧
      facValidWord h % 4 = 0 ∧
      (c.tryStore v h).1.fetch = v ∧
      facWritingWord h = facValidWord h ||| 1) ∧
    (c.hashLock ≠ 0 → (c.tryStore v h).1 = c ∧ (c.tryStore v h).2 = false) := by
  have h4 : facValidWord h % 4 = 0 := by
    unfold facValidWord
    rw [Nat.mod_mod_of_dvd _ (by norm_num : (4 : Nat) ∣ 2 ^ 64), Nat.shiftLeft_eq]
    norm_num [Nat.mul_mod_left]
  by_cases hc : c.hashLock = 0
  · refine ⟨by simp [FastAtomicCell.tryStore, hc], ?_, fun hne => absurd hc hne⟩
    intro _
    refine ⟨by simp [FastAtomicCell.tryStore, hc], rfl, h4,
      by simp [FastAtomicCell.tryStore, FastAtomicCell.fetch, hc], rfl⟩
  · refine ⟨by simp [FastAtomicCell.tryStore, hc], fun h0 => absurd h0 hc, ?_⟩
    intro _
    exact ⟨by simp [FastAtomicCell.tryStore, hc], by simp [FastAtomicCell.tryStore, hc]⟩

/-! ### The atomic-compact cell state encoding (C6) -/

/-- C6 counterexample: `empty()` checks only the value (`!value.load().t`),
not the tag.  Invalidating the initial (all-zero) cell yields the reachable
state `(t = 0, tag = 1)`, which satisfies `empty()` although its tag is
nonzero, and satisfies `empty()` and `invalid()` simultaneously. -/
theorem atomic_cell_encoding_cex :
    AtomicReach ⟨0, 1⟩ ∧ atomicCellEmpty ⟨0, 1⟩ = true ∧
    ¬ ((⟨0, 1⟩ : TaggedVal).tag = 0 ∧ (⟨0, 1⟩ : TaggedVal).t = 0) ∧
    atomicCellInvalid ⟨0, 1⟩ = true := by
  refine ⟨?_, by decide, by decide, by decide⟩
  have h := AtomicReach.inval AtomicReach.init
  have he : (atomicCellInvalidate ⟨0, 0⟩).1 = ⟨0, 1⟩ := by decide
  exact he ▸ h

/-- C6 (amended): `empty()` holds exactly when the value is 0 (the tag is not
consulted), `invalid()` exactly when tag = 0 ∧ value ≠ 0 or tag ≠ 0 ∧
value = 0; consequently the reachable invalidated-empty state
`(t = 0, tag = 1)` satisfies both predicates at once. -/
theorem atomic_cell_encoding (c : TaggedVal) :
    (atomicCellEmpty c = true ↔ c.t = 0) ∧
    (atomicCellInvalid c = true ↔ (c.tag = 0 ∧ c.t ≠ 0) ∨ (c.tag ≠ 0 ∧ c.t = 0)) ∧
    AtomicReach ⟨0, 1⟩ ∧ atomicCellEmpty ⟨0, 1⟩ = true ∧
    atomicCellInvalid ⟨0, 1⟩ = true := by
  refine ⟨?_, ?_, ?_, by decide, by decide⟩
  · simp [atomicCellEmpty]
  · simp [atomicCellInvalid]
  · have h := AtomicReach.inval AtomicReach.init
    have he : (atomicCellInvalidate ⟨0, 0⟩).1 = ⟨0, 1⟩ := by decide
    exact he ▸ h

/-! ### The compact non-atomic cell (C9) -/

/-- C9 counterexample: `CompactCell::empty()` is `!_value` and never consults
the hasher's `valid()`; a contract-satisfying hasher whose `valid` also
rejects 5 disagrees with `empty()` at the stored value 5. -/
theorem compact_cell_empty_cex :
    ¬ ∀ valid : Nat → Bool, valid 0 = false → ∀ v : Nat, compactEmpty v = !(valid v) := by
  intro hcl
  have h5 := hcl (fun v => decide (v ≠ 0) && decide (v ≠ 5)) (by decide) 5
  exact absurd h5 (by decide)

/-- C9 (amended): `empty()` returns true exactly when the stored value is
zero (the conventional sentinel); it agrees with the negation of the hasher's
`valid()` precisely for hashers whose `valid` is nonzero-ness. -/
theorem compact_cell_empty_spec :
    (∀ v : Nat, compactEmpty v = (v == 0)) ∧
    (∀ valid : Nat → Bool, (∀ v, valid v = decide (v ≠ 0)) →
      ∀ v : Nat, compactEmpty v = !(valid v)) := by
  refine ⟨fun v => rfl, ?_⟩
  intro valid hv v
  rw [hv]
  by_cases h0 : v = 0
  · simp [compactEmpty, h0]
  · simp [compactEmpty, h0]

/-! ### Concurrent sizing (C8): `fill`, `nextSize`, `setSize` -/

theorem orshift_prop (x : Nat) :
    ∀ (m y : Nat), (∀ j, y.testBit j = true ↔ ∃ d, d < m ∧ x.testBit (j + d) = true) →
    ∀ j, (y ||| y >>> m).testBit j = true ↔ ∃ d, d < 2 * m ∧ x.testBit (j + d) = true := by
  intro m y hy j
  rw [Nat.testBit_or, Nat.testBit_shiftRight, Bool.or_eq_true, hy j, hy (m + j)]
  constructor
  · rintro (⟨d, hd, hb⟩ | ⟨d, hd, hb⟩)
    · exact ⟨d, by omega, hb⟩
    · exact ⟨m + d, by omega, (by omega : m + j + d = j + (m + d)) ▸ hb⟩
  · rintro ⟨d, hd, hb⟩
    by_cases hdm : d < m
    · exact Or.inl ⟨d, hdm, hb⟩
    · exact Or.inr ⟨d - m, by omega, (by omega : j + d = m + j + (d - m)) ▸ hb⟩

theorem fill_testBit {x : Nat} (hx : x ≠ 0) :
    ∀ j, (fill x).testBit j = true ↔ ∃ d, d < 64 ∧ x.testBit (j + d) = true := by
  have h0 : ∀ j, x.testBit j = true ↔ ∃ d, d < 1 ∧ x.testBit (j + d) = true := by
    intro j
    constructor
    · intro hb
      exact ⟨0, Nat.zero_lt_one, by simpa using hb⟩
    · rintro ⟨d, hd, hb⟩
      have hd0 : d = 0 := by omega
      subst hd0
      simpa using hb
  have hfin := orshift_prop x 32 _ (orshift_prop x 16 _ (orshift_prop x 8 _
    (orshift_prop x 4 _ (orshift_prop x 2 _ (orshift_prop x 1 x h0)))))
  intro j
  have hfx : (fill x).testBit j = true ↔ ∃ d, d < 2 * 32 ∧ x.testBit (j + d) = true := by
    simp only [fill, hx, if_false]
    exact hfin j
  rw [hfx]

theorem fill_spec {x : Nat} (hx1 : 1 ≤ x) (hx2 : x < 2 ^ 64) :
    fill x = 2 ^ (Nat.log2 x + 1) - 1 := by
  have hL : 2 ^ Nat.log2 x ≤ x := Nat.log2_self_le (by omega)
  have hU : x < 2 ^ (Nat.log2 x + 1) := (Nat.log2_lt (by omega)).1 (Nat.lt_succ_self _)
  have hlt64 : Nat.log2 x < 64 := (Nat.log2_lt (by omega)).2 hx2
  apply Nat.eq_of_testBit_eq
  intro j
  rw [Nat.testBit_two_pow_sub_one]
  by_cases hj : j < Nat.log2 x + 1
  · have hbit : x.testBit (Nat.log2 x) = true := testBit_true_of_bounds hL hU
    have hfj : (fill x).testBit j = true := by
      rw [fill_testBit (by omega)]
      exact ⟨Nat.log2 x - j, by omega,
        by rwa [show j + (Nat.log2 x - j) = Nat.log2 x by omega]⟩
    rw [hfj]
    simp [hj]
  · have hfj : (fill x).testBit j = false := by
      rw [← Bool.not_eq_true, fill_testBit (by omega)]
      rintro ⟨d, hd, hb⟩
      have hfalse : x.testBit (j + d) = false := testBit_false_of_lt hU (by omega)
      rw [hfalse] at hb
      exact Bool.false_ne_true hb
    rw [hfj]
    simp [hj]

theorem nextSize_self_le (t : Nat) : t ≤ nextSize t := by
  unfold nextSize
  split
  · omega
  · split
    · omega
    · split <;> omega

theorem nextSize_pow_is_pow (k : Nat) : ∃ m, nextSize (2 ^ k) = 2 ^ m := by
  unfold nextSize
  split
  · exact ⟨k + 4, by rw [Nat.pow_add]⟩
  · split
    · exact ⟨k + 3, by rw [Nat.pow_add]⟩
    · split
      · exact ⟨k + 2, by rw [Nat.pow_add]⟩
      · exact ⟨k + 1, by rw [Nat.pow_add]⟩

theorem nextSize_pow_large {k : Nat} (hk : 25 ≤ k) : nextSize (2 ^ k) = 2 ^ (k + 1) := by
  have h25 : (2 : Nat) ^ 25 ≤ 2 ^ k := Nat.pow_le_pow_right (by norm_num) hk
  have hbig : (33554432 : Nat) ≤ 2 ^ k := le_trans (by norm_num) h25
  unfold nextSize
  rw [if_neg (by omega), if_neg (by omega), if_neg (by omega)]
  rw [Nat.pow_succ]

theorem nextSize_pow_mono (k : Nat) : nextSize (2 ^ k) ≤ nextSize (2 ^ (k + 1)) := by
  by_cases hk : k < 25
  · exact (by decide : ∀ m, m < 25 → nextSize (2 ^ m) ≤ nextSize (2 ^ (m + 1))) k hk
  · rw [nextSize_pow_large (by omega), nextSize_pow_large (by omega)]
    exact Nat.pow_le_pow_right (by norm_num) (by omega)

theorem nextSize_pow_mono_le {j k : Nat} (h : j ≤ k) :
    nextSize (2 ^ j) ≤ nextSize (2 ^ k) := by
  induction k with
  | zero =>
    have hj : j = 0 := by omega
    subst hj
    exact le_refl _
  | succ k ih =>
    rcases Nat.lt_or_ge j (k + 1) with hj | hj
    · exact le_trans (ih (by omega)) (nextSize_pow_mono k)
    · have hjk : j = k + 1 := by omega
      subst hjk
      exact le_refl _

theorem toSetLoop_go : ∀ (fuel s j : Nat), 1 ≤ s → s ≤ 2 ^ (j + fuel) →
    (∀ i, i < j → nextSize (2 ^ i) < s) →
    ∃ k, toSetLoop fuel s (2 ^ j) = 2 ^ k ∧ j ≤ k ∧ s ≤ nextSize (2 ^ k) ∧
      ∀ i, i < k → nextSize (2 ^ i) < s := by
  intro fuel
  induction fuel with
  | zero =>
    intro s j hs hle hmin
    rw [toSetLoop]
    have hns : s ≤ nextSize (2 ^ j) := by
      have := nextSize_self_le (2 ^ j)
      simp only [Nat.add_zero] at hle
      omega
    exact ⟨j, rfl, le_refl j, hns, hmin⟩
  | succ fuel ih =>
    intro s j hs hle hmin
    rw [toSetLoop]
    by_cases hlt : nextSize (2 ^ j) < s
    · rw [if_pos hlt]
      have h2 : 2 * 2 ^ j = 2 ^ (j + 1) := by rw [Nat.pow_succ]; ring
      rw [h2]
      obtain ⟨k, hk1, hk2, hk3, hk4⟩ := ih s (j + 1) hs
        (by rw [show j + 1 + fuel = j + (fuel + 1) by omega]; exact hle)
        (by
          intro i hi
          rcases Nat.lt_or_ge i j with hij | hij
          · exact hmin i hij
          · have hij2 : i = j := by omega
            subst hij2
            exact hlt)
      exact ⟨k, hk1, by omega, hk3, hk4⟩
    · rw [if_neg hlt]
      exact ⟨j, rfl, le_refl j, by omega, hmin⟩

theorem conSetSize_sVal {n : Nat} (h1 : 1 ≤ n) (h2 : n ≤ 2 ^ 63) :
    ∃ e, (fill ((n + (2 ^ 64 - 1)) % 2 ^ 64) + 1) % 2 ^ 64 = 2 ^ e ∧
      n ≤ 2 ^ e ∧ ∀ m, n ≤ 2 ^ m → 2 ^ e ≤ 2 ^ m := by
  by_cases hn1 : n = 1
  · subst hn1
    refine ⟨0, by decide, by norm_num, fun m _ => Nat.one_le_two_pow⟩
  · have hn2 : 2 ≤ n := by omega
    have h63 : (2 : Nat) ^ 63 < 2 ^ 64 := by norm_num
    have hmod : (n + (2 ^ 64 - 1)) % 2 ^ 64 = n - 1 := by
      have heq : n + (2 ^ 64 - 1) = (n - 1) + 1 * 2 ^ 64 := by omega
      rw [heq, Nat.add_mul_mod_self_right]
      exact Nat.mod_eq_of_lt (by omega)
    have hfill : fill (n - 1) = 2 ^ (Nat.log2 (n - 1) + 1) - 1 :=
      fill_spec (by omega) (by omega)
    have hLlt : Nat.log2 (n - 1) < 63 :=
      (Nat.log2_lt (by omega)).2 (by omega)
    have hpow : 2 ^ (Nat.log2 (n - 1) + 1) < 2 ^ 64 :=
      Nat.pow_lt_pow_right (by norm_num) (by omega)
    refine ⟨Nat.log2 (n - 1) + 1, ?_, ?_, ?_⟩
    · rw [hmod, hfill]
      have h1p : 1 ≤ 2 ^ (Nat.log2 (n - 1) + 1) := Nat.one_le_two_pow
      rw [Nat.sub_add_cancel h1p]
      exact Nat.mod_eq_of_lt hpow
    · have := (Nat.log2_lt (show n - 1 ≠ 0 by omega)).1 (Nat.lt_succ_self (Nat.log2 (n - 1)))
      omega
    · intro m hm
      apply Nat.pow_le_pow_right (by norm_num)
      by_contra hcon
      push_neg at hcon
      have h2L : 2 ^ m ≤ 2 ^ Nat.log2 (n - 1) :=
        Nat.pow_le_pow_right (by norm_num) (by omega)
      have hself : 2 ^ Nat.log2 (n - 1) ≤ n - 1 := Nat.log2_self_le (by omega)
      omega

/-- C8 counterexample: row 0's reserved size after default construction
(`setSize(16)`) is 1, not 16, and after `set_size(4096)` it is 256, not the
claimed smallest schedule entry ≥ 4096 (which is 4096 itself, materialising
only in the first allocated row as `nextSize(256)`). -/
theorem concurrent_set_size_cex :
    conSetSize 16 = 1 ∧ (1 : Nat) ≠ 16 ∧ conSetSize 4096 = 256 ∧ (256 : Nat) ≠ 4096 := by
  refine ⟨by decide, by norm_num, by decide, by norm_num⟩

/-- C8 (amended): `setSize(n)` (for `1 ≤ n ≤ 2 ^ 63`; called before any
insertion) sets row 0's reserved size to the smallest power of two `t` with
`nextSize(t) ≥ n`; row 0 is never allocated, and the first allocated row
receives `nextSize(t)` cells — the smallest entry of the growth schedule
`{nextSize(2 ^ j)}` that is ≥ n.  Default construction calls `setSize(16)`,
reserving 1, so the implicit initial capacity materialises as
`nextSize(1) = 16` cells in row 1. -/
theorem concurrent_set_size (n : Nat) (h1 : 1 ≤ n) (h2 : n ≤ 2 ^ 63) :
    (∃ k, conSetSize n = 2 ^ k) ∧
    n ≤ nextSize (conSetSize n) ∧
    (∀ j, n ≤ nextSize (2 ^ j) → nextSize (conSetSize n) ≤ nextSize (2 ^ j)) ∧
    conSetSize 16 = 1 ∧ nextSize (conSetSize 16) = 16 := by
  obtain ⟨e, he, hne, hmin⟩ := conSetSize_sVal h1 h2
  have hS : (fill ((n + (2 ^ 64 - 1)) % 2 ^ 64) + 1) % 2 ^ 64 ≤ 2 ^ 64 := by
    have := Nat.mod_lt (fill ((n + (2 ^ 64 - 1)) % 2 ^ 64) + 1)
      (show 0 < 2 ^ 64 by norm_num)
    omega
  have hgo := toSetLoop_go 64 ((fill ((n + (2 ^ 64 - 1)) % 2 ^ 64) + 1) % 2 ^ 64) 0
    (by rw [he]; exact Nat.one_le_two_pow) (by simpa using hS) (by omega)
  obtain ⟨k, hk1, _, hk3, hk4⟩ := hgo
  have hcs : conSetSize n = 2 ^ k := by
    unfold conSetSize
    rw [← hk1]
    norm_num
  refine ⟨⟨k, hcs⟩, ?_, ?_, by decide, by decide⟩
  · rw [hcs]
    rw [he] at hk3
    omega
  · intro j hj
    rw [hcs]
    rcases Nat.lt_or_ge j k with hjk | hjk
    · obtain ⟨m, hm⟩ := nextSize_pow_is_pow j
      have hlt := hk4 j hjk
      rw [hm, he] at hlt
      have hge := hmin m (by rw [← hm]; exact hj)
      omega
    · exact nextSize_pow_mono_le hjk

/-- Witness for `concurrent_set_size` at `n = 4096`. -/
theorem concurrent_set_size_witness :
    (1 ≤ 4096 ∧ 4096 ≤ 2 ^ 63) ∧
    ((∃ k, conSetSize 4096 = 2 ^ k) ∧
      4096 ≤ nextSize (conSetSize 4096) ∧
      (∀ j, 4096 ≤ nextSize (2 ^ j) → nextSize (conSetSize 4096) ≤ nextSize (2 ^ j)) ∧
      conSetSize 16 = 1 ∧ nextSize (conSetSize 16) = 16) :=
  ⟨⟨by norm_num, by norm_num⟩, concurrent_set_size 4096 (by norm_num) (by norm_num)⟩

/-! ### List access helpers -/

theorem getD_eq_getElem {β : Type} (l : List β) (i : Nat) (d : β) (h : i < l.length) :
    l.getD i d = l[i] := by
  rw [List.getD_eq_getElem?_getD, List.getElem?_eq_getElem h]
  rfl

theorem getD_set_self {β : Type} (l : List β) (i : Nat) (a d : β) (h : i < l.length) :
    (l.set i a).getD i d = a := by
  rw [List.getD_eq_getElem?_getD, List.getElem?_set_self h]
  rfl

theorem getD_set_ne {β : Type} (l : List β) (i j : Nat) (a d : β) (h : i ≠ j) :
    (l.set i a).getD j d = l.getD j d := by
  rw [List.getD_eq_getElem?_getD, List.getD_eq_getElem?_getD, List.getElem?_set_ne h]

theorem getD_replicate {β : Type} (n : Nat) (a d : β) (i : Nat) :
    (List.replicate n a).getD i d = if i < n then a else d := by
  rw [List.getD_eq_getElem?_getD, List.getElem?_replicate]
  by_cases h : i < n <;> simp [h]

/-! ### Cell and probe basics -/

theorem cellAt_set_self {α : Type} [Inhabited α] (tbl : List (Cell α)) (idx : Nat)
    (c : Cell α) (h : idx < tbl.length) : cellAt (tbl.set idx c) idx = c :=
  getD_set_self tbl idx c emptyCellF h

theorem cellAt_set_ne {α : Type} [Inhabited α] (tbl : List (Cell α)) (idx p : Nat)
    (c : Cell α) (h : idx ≠ p) : cellAt (tbl.set idx c) p = cellAt tbl p :=
  getD_set_ne tbl idx p c emptyCellF h

theorem cellAt_replicate {α : Type} [Inhabited α] (n p : Nat) :
    cellAt (List.replicate n (emptyCellF : Cell α)) p = emptyCellF := by
  unfold cellAt
  rw [getD_replicate]
  by_cases h : p < n <;> simp [h]

theorem cell_is_iff {α : Type} [DecidableEq α] (c : Cell α) (v : α) (h : Nat) :
    c.is v h = true ↔ c.hash = h ∧ c.value = v := by
  simp [Cell.is]

theorem index_le_mask (tb h i mask : Nat) : index tb h i mask ≤ mask := by
  simp only [index]
  split <;> exact Nat.and_le_right

theorem containsT_iff {α : Type} [Inhabited α] {tbl : List (Cell α)} {w : α} :
    containsT tbl w ↔ ∃ c ∈ tbl, c.hash ≠ 0 ∧ c.value = w := by
  constructor
  · rintro ⟨p, hp, hne, hval⟩
    refine ⟨cellAt tbl p, ?_, hne, hval⟩
    rw [cellAt, getD_eq_getElem _ _ _ hp]
    exact List.getElem_mem hp
  · rintro ⟨c, hc, hne, hval⟩
    obtain ⟨p, hp, hpc⟩ := List.mem_iff_getElem.1 hc
    refine ⟨p, hp, ?_, ?_⟩
    · rw [cellAt, getD_eq_getElem _ _ _ hp, hpc]
      exact hne
    · rw [cellAt, getD_eq_getElem _ _ _ hp, hpc]
      exact hval

theorem filter_length_set {α : Type} [Inhabited α] :
    ∀ (tbl : List (Cell α)) (idx : Nat) (c : Cell α), idx < tbl.length →
    (cellAt tbl idx).hash = 0 → c.hash ≠ 0 →
    ((tbl.set idx c).filter fun x => x.hash != 0).length =
      (tbl.filter fun x => x.hash != 0).length + 1 := by
  intro tbl
  induction tbl with
  | nil => intro idx c h; simp at h
  | cons hd tl ih =>
    intro idx c hlen hold hnew
    cases idx with
    | zero =>
      have hhd : hd.hash = 0 := hold
      simp only [List.set]
      rw [List.filter_cons_of_pos (by simpa using hnew),
        List.filter_cons_of_neg (by simpa using hhd)]
      simp
    | succ i =>
      have hold' : (cellAt tl i).hash = 0 := hold
      simp only [List.set]
      by_cases hh : hd.hash ≠ 0
      · rw [List.filter_cons_of_pos (by simpa using hh),
          List.filter_cons_of_pos (by simpa using hh)]
        simp only [List.length_cons]
        rw [ih i c (by simpa using hlen) hold' hnew]
      · push_neg at hh
        rw [List.filter_cons_of_neg (by simpa using hh),
          List.filter_cons_of_neg (by simpa using hh)]
        exact ih i c (by simpa using hlen) hold' hnew

/-! ### Probe loop characterisation -/

theorem probeFirst_some {α : Type} [DecidableEq α] [Inhabited α] {tb : Nat}
    {tbl : List (Cell α)} {bits : Nat} {item : α} {h : Nat} :
    ∀ {fuel i j : Nat} {b : Bool},
      probeFirst tb tbl bits item h fuel i = some (j, b) →
      i ≤ j ∧ j < i + fuel ∧
      (∀ k, i ≤ k → k < j → (cellAt tbl (index tb h k bits)).hash ≠ 0 ∧
        (cellAt tbl (index tb h k bits)).is item h = false) ∧
      (b = true → (cellAt tbl (index tb h j bits)).hash = 0) ∧
      (b = false → (cellAt tbl (index tb h j bits)).hash ≠ 0 ∧
        (cellAt tbl (index tb h j bits)).is item h = true) := by
  intro fuel
  induction fuel with
  | zero =>
    intro i j b hp
    exact absurd hp (by simp [probeFirst])
  | succ fuel ih =>
    intro i j b hp
    simp only [probeFirst] at hp
    by_cases h0 : (cellAt tbl (index tb h i bits)).hash = 0
    · rw [if_pos h0] at hp
      simp only [Option.some.injEq, Prod.mk.injEq] at hp
      obtain ⟨rfl, rfl⟩ := hp
      exact ⟨le_refl _, by omega, fun k hk1 hk2 => absurd hk2 (by omega),
        fun _ => h0, fun hb => by simp at hb⟩
    · rw [if_neg h0] at hp
      by_cases hm : (cellAt tbl (index tb h i bits)).is item h = true
      · rw [if_pos hm] at hp
        simp only [Option.some.injEq, Prod.mk.injEq] at hp
        obtain ⟨rfl, rfl⟩ := hp
        exact ⟨le_refl _, by omega, fun k hk1 hk2 => absurd hk2 (by omega),
          fun hb => by simp at hb, fun _ => ⟨h0, hm⟩⟩
      · rw [if_neg hm] at hp
        have hm' : (cellAt tbl (index tb h i bits)).is item h = false := by
          simpa using hm
        obtain ⟨h1, h2, h3, h4, h5⟩ := ih hp
        refine ⟨by omega, by omega, ?_, h4, h5⟩
        intro k hk1 hk2
        rcases Nat.lt_or_ge k (i + 1) with hk | hk
        · have hki : k = i := by omega
          subst hki
          exact ⟨h0, hm'⟩
        · exact h3 k hk hk2

theorem probeFirst_none {α : Type} [DecidableEq α] [Inhabited α] {tb : Nat}
    {tbl : List (Cell α)} {bits : Nat} {item : α} {h : Nat} :
    ∀ {fuel i : Nat}, probeFirst tb tbl bits item h fuel i = none →
      ∀ k, i ≤ k → k < i + fuel → (cellAt tbl (index tb h k bits)).hash ≠ 0 ∧
        (cellAt tbl (index tb h k bits)).is item h = false := by
  intro fuel
  induction fuel with
  | zero =>
    intro i hp k hk1 hk2
    omega
  | succ fuel ih =>
    intro i hp k hk1 hk2
    simp only [probeFirst] at hp
    by_cases h0 : (cellAt tbl (index tb h i bits)).hash = 0
    · rw [if_pos h0] at hp
      simp at hp
    · rw [if_neg h0] at hp
      by_cases hm : (cellAt tbl (index tb h i bits)).is item h = true
      · rw [if_pos hm] at hp
        simp at hp
      · rw [if_neg hm] at hp
        rcases Nat.lt_or_ge k (i + 1) with hk | hk
        · have hki : k = i := by omega
          subst hki
          exact ⟨h0, by simpa using hm⟩
        · exact ih hp k hk (by omega)

/-! ### Probe outcomes under the invariant -/

theorem probe_stops_found {α : Type} [DecidableEq α] [Inhabited α] {hf : α → Nat}
    {tb : Nat} {tbl : List (Cell α)} {bits used : Nat} {v : α}
    (hInv : Inv hf tb tbl bits used) (hcont : containsT tbl v) :
    ∃ j, probeFirst tb tbl bits v (hf v) maxcollisions 0 = some (j, false) := by
  obtain ⟨geom, hcons, hnodup, hcount⟩ := hInv
  obtain ⟨idx, hidx, hneq, hval⟩ := hcont
  obtain ⟨hhash, i0, hi0, hieq, hchain⟩ :=
    And.intro (hcons idx hidx hneq).1 (hcons idx hidx hneq).2
  have hfv : (cellAt tbl idx).hash = hf v := by rw [hhash, hval]
  rw [hfv] at hieq hchain
  have hmatch : (cellAt tbl idx).is v (hf v) = true := (cell_is_iff _ _ _).2 ⟨hfv, hval⟩
  rcases hp : probeFirst tb tbl bits v (hf v) maxcollisions 0 with _ | ⟨j, b⟩
  · exfalso
    have hall := probeFirst_none hp i0 (by omega) (by omega)
    rw [hieq] at hall
    rw [hmatch] at hall
    simp at hall
  · obtain ⟨hj0, hjlt, hbefore, hbtrue, hbfalse⟩ := probeFirst_some hp
    have hjle : j ≤ i0 := by
      by_contra hcon
      push_neg at hcon
      have hb := hbefore i0 (by omega) hcon
      rw [hieq, hmatch] at hb
      simp at hb
    cases b with
    | true =>
      exfalso
      have hempty := hbtrue rfl
      rcases Nat.lt_or_ge j i0 with hlt | hge
      · exact hchain j hlt hempty
      · have hji : j = i0 := by omega
        subst hji
        rw [hieq] at hempty
        exact hneq hempty
    | false => exact ⟨j, rfl⟩

theorem probe_match_contains {α : Type} [DecidableEq α] [Inhabited α] {hf : α → Nat}
    {tb : Nat} {tbl : List (Cell α)} {bits used : Nat} {v : α} {j : Nat}
    (hInv : Inv hf tb tbl bits used)
    (hp : probeFirst tb tbl bits v (hf v) maxcollisions 0 = some (j, false)) :
    containsT tbl v := by
  obtain ⟨⟨kk, hkk, hbits, hlen⟩, _, _, _⟩ := hInv
  obtain ⟨_, _, _, _, hbf⟩ := probeFirst_some hp
  obtain ⟨hne, hm⟩ := hbf rfl
  obtain ⟨hh, hv⟩ := (cell_is_iff _ _ _).1 hm
  refine ⟨index tb (hf v) j bits, ?_, hne, hv⟩
  have := index_le_mask tb (hf v) j bits
  have h1p : 1 ≤ 2 ^ kk := Nat.one_le_two_pow
  omega

theorem insertCore_found {α : Type} [DecidableEq α] [Inhabited α] {hf : α → Nat}
    {tb : Nat} {tbl : List (Cell α)} {bits used : Nat} {v : α}
    (hInv : Inv hf tb tbl bits used) (hcont : containsT tbl v) :
    insertCore tb tbl bits used v (hf v) = some (tbl, used, false) := by
  obtain ⟨j, hj⟩ := probe_stops_found hInv hcont
  unfold insertCore
  rw [hj]

theorem insertCore_new {α : Type} [DecidableEq α] [Inhabited α] {hf : α → Nat}
    {tb : Nat} {tbl : List (Cell α)} {bits used : Nat} {v : α}
    (hres : ∀ x, hf x ≠ 0) (hInv : Inv hf tb tbl bits used)
    (habs : ¬ containsT tbl v) :
    insertCore tb tbl bits used v (hf v) = none ∨
    ∃ tbl', insertCore tb tbl bits used v (hf v) = some (tbl', used + 1, true) ∧
      Inv hf tb tbl' bits (used + 1) ∧ tbl'.length = tbl.length ∧
      (∀ w, containsT tbl' w ↔ w = v ∨ containsT tbl w) := by
  obtain ⟨⟨kk, hkk, hbits, hlen⟩, hcons, hnodup, hcount⟩ := hInv
  have h1p : 1 ≤ 2 ^ kk := Nat.one_le_two_pow
  have hnomatch : ∀ k, (cellAt tbl (index tb (hf v) k bits)).is v (hf v) = true → False := by
    intro k hk
    obtain ⟨hh, hv⟩ := (cell_is_iff _ _ _).1 hk
    apply habs
    refine ⟨index tb (hf v) k bits, ?_, by rw [hh]; exact hres v, hv⟩
    have := index_le_mask tb (hf v) k bits
    omega
  rcases hp : probeFirst tb tbl bits v (hf v) maxcollisions 0 with _ | ⟨j, b⟩
  · left
    unfold insertCore
    rw [hp]
  · right
    cases b with
    | false =>
      exfalso
      obtain ⟨_, _, _, _, hbf⟩ := probeFirst_some hp
      exact hnomatch j (hbf rfl).2
    | true =>
      obtain ⟨hj0, hjlt, hbefore, hbtrue, _⟩ := probeFirst_some hp
      have hempty : (cellAt tbl (index tb (hf v) j bits)).hash = 0 := hbtrue rfl
      have hidxlt : index tb (hf v) j bits < tbl.length := by
        have := index_le_mask tb (hf v) j bits
        omega
      refine ⟨tbl.set (index tb (hf v) j bits) ⟨v, hf v⟩, ?_, ?_, by simp, ?_⟩
      · unfold insertCore
        rw [hp]
      · -- the invariant is preserved by storing at the first empty probe slot
        have hself := cellAt_set_self tbl (index tb (hf v) j bits) ⟨v, hf v⟩ hidxlt
        have hother : ∀ p, p ≠ index tb (hf v) j bits →
            cellAt (tbl.set (index tb (hf v) j bits) ⟨v, hf v⟩) p = cellAt tbl p :=
          fun p hp' => cellAt_set_ne tbl (index tb (hf v) j bits) p ⟨v, hf v⟩
            (fun he => hp' he.symm)
        -- a cell that is non-empty in the old table is not the store target
        have hne_target : ∀ p, (cellAt tbl p).hash ≠ 0 → p ≠ index tb (hf v) j bits := by
          intro p hpne heq
          rw [heq] at hpne
          exact hpne hempty
        refine ⟨⟨kk, hkk, hbits, by simpa using hlen⟩, ?_, ?_, ?_⟩
        · -- hash-consistency and chains
          intro p hplen hpne
          by_cases hpidx : p = index tb (hf v) j bits
          · subst hpidx
            refine ⟨by simp [hself], ?_⟩
            unfold chainAt
            simp only [hself]
            refine ⟨j, by omega, rfl, ?_⟩
            intro k hk
            have hb := hbefore k (by omega) hk
            have hnt := hne_target _ hb.1
            rw [hother _ hnt]
            exact hb.1
          · rw [hother p hpidx] at hpne
            obtain ⟨hch, hchain0⟩ := hcons p (by simpa using hplen) hpne
            obtain ⟨i0, hi0, hieq, hchain⟩ := hchain0
            refine ⟨by rw [hother p hpidx]; exact hch, ?_⟩
            unfold chainAt
            rw [hother p hpidx]
            refine ⟨i0, hi0, hieq, ?_⟩
            intro k hk
            have hold := hchain k hk
            have hnt := hne_target _ hold
            rw [hother _ hnt]
            exact hold
        · -- no duplicate values
          intro p1 p2 hp1 hp2 hne1 hne2 hveq
          by_cases h1 : p1 = index tb (hf v) j bits <;>
            by_cases h2 : p2 = index tb (hf v) j bits
          · rw [h1, h2]
          · exfalso
            rw [h1, hself] at hveq hne1
            rw [hother p2 h2] at hveq hne2
            exact habs ⟨p2, by simpa using hp2, hne2, hveq.symm⟩
          · exfalso
            rw [h2, hself] at hveq hne2
            rw [hother p1 h1] at hveq hne1
            exact habs ⟨p1, by simpa using hp1, hne1, hveq⟩
          · rw [hother p1 h1] at hveq hne1
            rw [hother p2 h2] at hveq hne2
            exact hnodup p1 p2 (by simpa using hp1) (by simpa using hp2) hne1 hne2 hveq
        · -- the used counter counts occupied cells
          rw [filter_length_set tbl _ _ hidxlt hempty (by simp [hres v])]
          omega
      · -- contents: exactly the old values plus v
        intro w
        constructor
        · rintro ⟨p, hp, hne, hval⟩
          by_cases hpidx : p = index tb (hf v) j bits
          · subst hpidx
            rw [cellAt_set_self tbl _ _ hidxlt] at hval
            exact Or.inl hval.symm
          · rw [cellAt_set_ne tbl _ p _ (fun he => hpidx he.symm)] at hne hval
            exact Or.inr ⟨p, by simpa using hp, hne, hval⟩
        · rintro (hw | ⟨p, hp, hne, hval⟩)
          · refine ⟨index tb (hf v) j bits, by simpa using hidxlt, ?_, ?_⟩
            · rw [cellAt_set_self tbl _ _ hidxlt]
              exact hres v
            · rw [cellAt_set_self tbl _ _ hidxlt]
              exact hw.symm
          · have hnt : p ≠ index tb (hf v) j bits := by
              intro heq
              rw [heq] at hne
              exact hne hempty
            exact ⟨p, by simpa using hp,
              by rw [cellAt_set_ne tbl _ p _ (fun he => hnt he.symm)]; exact hne,
              by rw [cellAt_set_ne tbl _ p _ (fun he => hnt he.symm)]; exact hval⟩

/-! ### Rehashing and growth under the invariant -/

theorem rehashList_spec {α : Type} [DecidableEq α] [Inhabited α] {hf : α → Nat}
    {tb bits : Nat} (hres : ∀ x, hf x ≠ 0) :
    ∀ (cs tbl : List (Cell α)) (used : Nat) (tbl' : List (Cell α)) (used' : Nat),
      (∀ c ∈ cs, c.hash ≠ 0 → c.hash = hf c.value) →
      cs.Pairwise (fun c c' => c.hash ≠ 0 → c'.hash ≠ 0 → c.value ≠ c'.value) →
      (∀ c ∈ cs, c.hash ≠ 0 → ¬ containsT tbl c.value) →
      Inv hf tb tbl bits used →
      rehashList tb bits cs tbl used = some (tbl', used') →
      Inv hf tb tbl' bits used' ∧ tbl'.length = tbl.length ∧
      used' = used + (cs.filter fun c => c.hash != 0).length ∧
      (∀ w, containsT tbl' w ↔ (∃ c ∈ cs, c.hash ≠ 0 ∧ c.value = w) ∨ containsT tbl w) := by
  intro cs
  induction cs with
  | nil =>
    intro tbl used tbl' used' _ _ _ hInv hr
    unfold rehashList at hr
    simp only [Option.some.injEq, Prod.mk.injEq] at hr
    obtain ⟨rfl, rfl⟩ := hr
    exact ⟨hInv, rfl, by simp, fun w => by simp⟩
  | cons c cs ih =>
    intro tbl used tbl' used' hcons hpair hdisj hInv hr
    unfold rehashList at hr
    by_cases hc0 : c.hash = 0
    · rw [if_pos hc0] at hr
      obtain ⟨hI, hL, hU, hW⟩ := ih tbl used tbl' used'
        (fun c' hc' => hcons c' (List.mem_cons_of_mem c hc'))
        (List.pairwise_cons.1 hpair).2
        (fun c' hc' => hdisj c' (List.mem_cons_of_mem c hc'))
        hInv hr
      refine ⟨hI, hL, ?_, ?_⟩
      · rw [hU, List.filter_cons_of_neg (by simpa using hc0)]
      · intro w
        rw [hW w]
        constructor
        · rintro (⟨c', hc', hne, hval⟩ | hC)
          · exact Or.inl ⟨c', List.mem_cons_of_mem c hc', hne, hval⟩
          · exact Or.inr hC
        · rintro (⟨c', hc', hne, hval⟩ | hC)
          · rcases List.mem_cons.1 hc' with heqc | hmem
            · rw [heqc] at hne
              exact absurd hc0 hne
            · exact Or.inl ⟨c', hmem, hne, hval⟩
          · exact Or.inr hC
    · rw [if_neg hc0] at hr
      have hch : c.hash = hf c.value := hcons c (List.mem_cons_self c cs) hc0
      have habs : ¬ containsT tbl c.value := hdisj c (List.mem_cons_self c cs) hc0
      rcases hic : insertCore tb tbl bits used c.value c.hash with _ | ⟨tbl1, used1, flag⟩
      · rw [hic] at hr
        simp at hr
      · rw [hic] at hr
        rw [hch] at hic
        rcases insertCore_new hres hInv habs with hnone | ⟨tbl2, heq, hI2, hL2, hW2⟩
        · rw [hnone] at hic
          exact absurd hic (by simp)
        · rw [heq] at hic
          simp only [Option.some.injEq, Prod.mk.injEq] at hic
          obtain ⟨rfl, rfl, rfl⟩ := hic
          obtain ⟨hI, hL, hU, hW⟩ := ih tbl2 (used + 1) tbl' used'
            (fun c' hc' => hcons c' (List.mem_cons_of_mem c hc'))
            (List.pairwise_cons.1 hpair).2
            (fun c' hc' hne' hcontra => by
              rcases (hW2 c'.value).1 hcontra with heq' | hC
              · exact (List.pairwise_cons.1 hpair).1 c' hc' hc0 hne' heq'.symm
              · exact hdisj c' (List.mem_cons_of_mem c hc') hne' hC)
            hI2 hr
          refine ⟨hI, by rw [hL, hL2], ?_, ?_⟩
          · rw [hU, List.filter_cons_of_pos (by simpa using hc0)]
            simp only [List.length_cons]
            omega
          · intro w
            rw [hW w]
            constructor
            · rintro (⟨c', hc', hne', hval'⟩ | hC)
              · exact Or.inl ⟨c', List.mem_cons_of_mem c hc', hne', hval'⟩
              · rcases (hW2 w).1 hC with heq' | hC2
                · exact Or.inl ⟨c, List.mem_cons_self c cs, hc0, heq'.symm⟩
                · exact Or.inr hC2
            · rintro (⟨c', hc', hne', hval'⟩ | hC)
              · rcases List.mem_cons.1 hc' with heqc | hmem
                · refine Or.inr ((hW2 w).2 (Or.inl ?_))
                  rw [heqc] at hval'
                  exact hval'.symm
                · exact Or.inl ⟨c', hmem, hne', hval'⟩
              · exact Or.inr ((hW2 w).2 (Or.inr hC))

theorem grow_spec {α : Type} [DecidableEq α] [Inhabited α] {hf : α → Nat} {tb : Nat}
    {s s' : HashSet α} (hres : ∀ x, hf x ≠ 0) (hInv : InvS hf tb s)
    (hg : grow tb s = some s') :
    InvS hf tb s' ∧ (∀ w, containsT s'.table w ↔ containsT s.table w) := by
  obtain ⟨⟨kk, hkk, hbits, hlen⟩, hcons, hnodup, hcount⟩ := hInv
  unfold grow at hg
  by_cases hsz : 2 * s.table.length ≥ 2 ^ 64 - 1
  · rw [if_pos hsz] at hg
    simp at hg
  · rw [if_neg hsz] at hg
    rcases hr : rehashList tb (s.bits ||| s.bits <<< 1) s.table
        (List.replicate (2 * s.table.length) emptyCellF) 0 with _ | ⟨tbl', used'⟩
    · rw [hr] at hg
      simp at hg
    · rw [hr] at hg
      have hbits' : s.bits ||| s.bits <<< 1 = 2 ^ (kk + 1) - 1 := by
        rw [hbits]
        exact or_shift_double hkk
      have hfresh : Inv hf tb (List.replicate (2 * s.table.length) (emptyCellF : Cell α))
          (s.bits ||| s.bits <<< 1) 0 := by
        refine ⟨⟨kk + 1, by omega, hbits', ?_⟩, ?_, ?_, ?_⟩
        · simp only [List.length_replicate, hlen, Nat.pow_succ]
          ring
        · intro p hp hpne
          rw [cellAt_replicate] at hpne
          simp [emptyCellF] at hpne
        · intro p1 p2 h1 h2 hne1
          rw [cellAt_replicate] at hne1
          simp [emptyCellF] at hne1
        · simp [List.filter_replicate, emptyCellF]
      have hcons' : ∀ c ∈ s.table, c.hash ≠ 0 → c.hash = hf c.value := by
        intro c hc hne
        obtain ⟨p, hp, hpc⟩ := List.mem_iff_getElem.1 hc
        have hcc : cellAt s.table p = c := by rw [cellAt, getD_eq_getElem _ _ _ hp, hpc]
        have := (hcons p hp (by rw [hcc]; exact hne)).1
        rw [hcc] at this
        exact this
      have hpair' : s.table.Pairwise
          (fun c c' => c.hash ≠ 0 → c'.hash ≠ 0 → c.value ≠ c'.value) := by
        rw [List.pairwise_iff_getElem]
        intro p1 p2 hp1 hp2 hlt
        intro hne1 hne2 hveq
        have e1 : cellAt s.table p1 = s.table[p1] := by rw [cellAt, getD_eq_getElem _ _ _ hp1]
        have e2 : cellAt s.table p2 = s.table[p2] := by rw [cellAt, getD_eq_getElem _ _ _ hp2]
        have := hnodup p1 p2 hp1 hp2 (by rw [e1]; exact hne1) (by rw [e2]; exact hne2)
          (by rw [e1, e2]; exact hveq)
        omega
      have hdisj' : ∀ c ∈ s.table, c.hash ≠ 0 →
          ¬ containsT (List.replicate (2 * s.table.length) (emptyCellF : Cell α)) c.value := by
        rintro c hc hne ⟨p, hp, hpne, hval⟩
        rw [cellAt_replicate] at hpne
        simp [emptyCellF] at hpne
      obtain ⟨hI, hL, hU, hW⟩ := rehashList_spec hres s.table _ 0 tbl' used'
        hcons' hpair' hdisj' hfresh hr
      have hcnt : used' = s.used := by
        rw [hU, hcount]
        simp
      simp only [] at hg
      rw [if_pos hcnt] at hg
      simp only [Option.some.injEq] at hg
      subst hg
      constructor
      · show Inv hf tb tbl' (s.bits ||| s.bits <<< 1) s.used
        rw [← hcnt]
        exact hI
      · intro w
        show containsT tbl' w ↔ containsT s.table w
        rw [hW w]
        constructor
        · rintro (⟨c, hc, hne, hval⟩ | hC)
          · exact containsT_iff.2 ⟨c, hc, hne, hval⟩
          · exfalso
            obtain ⟨p, hp, hpne, _⟩ := hC
            rw [cellAt_replicate] at hpne
            simp [emptyCellF] at hpne
        · intro hC
          exact Or.inl (containsT_iff.1 hC)

/-! ### `findHinted` and `insertHinted` under the invariant -/

theorem findHinted_iff {α : Type} [DecidableEq α] [Inhabited α] {hf : α → Nat} {tb : Nat}
    {s : HashSet α} (hInv : InvS hf tb s) (v : α) :
    (findHinted tb s v (hf v) = true ↔ containsT s.table v) := by
  unfold findHinted
  rcases hp : probeFirst tb s.table s.bits v (hf v) maxcollisions 0 with _ | ⟨j, b⟩
  · constructor
    · intro h
      simp at h
    · intro hcont
      exfalso
      obtain ⟨j, hj⟩ := probe_stops_found hInv hcont
      rw [hp] at hj
      simp at hj
  · cases b with
    | true =>
      constructor
      · intro h
        simp at h
      · intro hcont
        exfalso
        obtain ⟨j', hj'⟩ := probe_stops_found hInv hcont
        rw [hp] at hj'
        simp at hj'
    | false =>
      constructor
      · intro _
        exact probe_match_contains hInv hp
      · intro _
        rfl

theorem insertHinted_spec {α : Type} [DecidableEq α] [Inhabited α] {hf : α → Nat} {tb : Nat}
    (hres : ∀ x, hf x ≠ 0) :
    ∀ (fuel : Nat) (s0 : HashSet α) (v : α) (s' : HashSet α) (isnew : Bool),
      InvS hf tb s0 →
      insertHinted tb fuel s0 v (hf v) = some (s', isnew) →
      InvS hf tb s' ∧ (∀ w, containsT s'.table w ↔ w = v ∨ containsT s0.table w) ∧
      (isnew = true ↔ ¬ containsT s0.table v) := by
  intro fuel
  induction fuel with
  | zero =>
    intro s0 v s' isnew hInv h
    exact absurd h (by simp [insertHinted])
  | succ fuel ih =>
    intro s0 v s' isnew hInv h
    rw [insertHinted] at h
    rcases hm1 : (if growTrigger false s0.used s0.table.length then grow tb s0 else some s0)
      with _ | s1
    · rw [hm1] at h
      simp at h
    · rw [hm1] at h
      simp only [] at h
      have hstep : InvS hf tb s1 ∧ ∀ w, (containsT s1.table w ↔ containsT s0.table w) := by
        by_cases hgt : growTrigger false s0.used s0.table.length = true
        · rw [if_pos hgt] at hm1
          exact grow_spec hres hInv hm1
        · rw [if_neg hgt] at hm1
          simp only [Option.some.injEq] at hm1
          subst hm1
          exact ⟨hInv, fun w => Iff.rfl⟩
      obtain ⟨hInv1, hpres1⟩ := hstep
      rcases hic : insertCore tb s1.table s1.bits s1.used v (hf v) with _ | ⟨tbl', used', flag⟩
      · rw [hic] at h
        rcases hg2 : grow tb s1 with _ | s2
        · rw [hg2] at h
          simp at h
        · rw [hg2] at h
          obtain ⟨hInv2, hpres2⟩ := grow_spec hres hInv1 hg2
          obtain ⟨hI, hC, hN⟩ := ih s2 v s' isnew hInv2 h
          refine ⟨hI, ?_, ?_⟩
          · intro w
            rw [hC w, hpres2 w, hpres1 w]
          · rw [hN, hpres2 v, hpres1 v]
      · rw [hic] at h
        simp only [Option.some.injEq, Prod.mk.injEq] at h
        obtain ⟨rfl, rfl⟩ := h
        by_cases hc : containsT s1.table v
        · have hfound := insertCore_found hInv1 hc
          rw [hic] at hfound
          simp only [Option.some.injEq, Prod.mk.injEq] at hfound
          obtain ⟨rfl, rfl, rfl⟩ := hfound
          have hc0 : containsT s0.table v := (hpres1 v).1 hc
          refine ⟨?_, ?_, ?_⟩
          · exact hInv1
          · intro w
            show containsT s1.table w ↔ w = v ∨ containsT s0.table w
            rw [hpres1 w]
            constructor
            · exact fun hw => Or.inr hw
            · rintro (hw | hw)
              · rw [hw]
                exact hc0
              · exact hw
          · simp [hc0]
        · rcases insertCore_new hres hInv1 hc with hnone | ⟨tbl2, heq, hI2, hL2, hW2⟩
          · rw [hnone] at hic
            exact absurd hic (by simp)
          · rw [heq] at hic
            simp only [Option.some.injEq, Prod.mk.injEq] at hic
            obtain ⟨rfl, rfl, rfl⟩ := hic
            refine ⟨?_, ?_, ?_⟩
            · exact hI2
            · intro w
              show containsT tbl2 w ↔ w = v ∨ containsT s0.table w
              rw [hW2 w, hpres1 w]
            · have hnc0 : ¬ containsT s0.table v := fun hx => hc ((hpres1 v).2 hx)
              simp [hnc0]

/-! ### Runs of inserts from the default-constructed set -/

theorem initHS_inv {α : Type} [DecidableEq α] [Inhabited α] (hf : α → Nat) (tb : Nat) :
    InvS hf tb (initHS α) := by
  have hb : bitsOf 32 = 31 := by decide
  refine ⟨⟨5, by norm_num, ?_, ?_⟩, ?_, ?_, ?_⟩
  · show bitsOf 32 = 2 ^ 5 - 1
    rw [hb]
    norm_num
  · show (List.replicate (bitsOf 32 + 1) (emptyCellF : Cell α)).length = 2 ^ 5
    rw [List.length_replicate, hb]
    norm_num
  · intro p hp hpne
    have : cellAt (initHS α).table p = emptyCellF := cellAt_replicate _ _
    rw [this] at hpne
    simp [emptyCellF] at hpne
  · intro p1 p2 h1 h2 hne1
    have : cellAt (initHS α).table p1 = emptyCellF := cellAt_replicate _ _
    rw [this] at hne1
    simp [emptyCellF] at hne1
  · show (0 : Nat) = _
    simp [initHS, setSize, List.filter_replicate, emptyCellF]

theorem initHS_empty {α : Type} [DecidableEq α] [Inhabited α] (w : α) :
    ¬ containsT (initHS α).table w := by
  rintro ⟨p, hp, hne, _⟩
  have : cellAt (initHS α).table p = emptyCellF := cellAt_replicate _ _
  rw [this] at hne
  simp [emptyCellF] at hne

theorem runInsertsFlags_spec {α : Type} [DecidableEq α] [Inhabited α] {hf : α → Nat}
    {tb : Nat} (hres : ∀ x, hf x ≠ 0) :
    ∀ (vs : List α) (fuel : Nat) (s0 s : HashSet α) (flags : List Bool),
      InvS hf tb s0 →
      runInsertsFlags tb fuel hf s0 vs = some (s, flags) →
      InvS hf tb s ∧
      (∀ w, containsT s.table w ↔ w ∈ vs ∨ containsT s0.table w) ∧
      flags.length = vs.length ∧
      (∀ i, i < vs.length →
        (flags.getD i false = true ↔
          ¬ (vs.getD i default ∈ vs.take i ∨ containsT s0.table (vs.getD i default)))) := by
  intro vs
  induction vs with
  | nil =>
    intro fuel s0 s flags hInv hr
    unfold runInsertsFlags at hr
    simp only [Option.some.injEq, Prod.mk.injEq] at hr
    obtain ⟨rfl, rfl⟩ := hr
    exact ⟨hInv, fun w => by simp, rfl, fun i hi => by simp at hi⟩
  | cons v vs ih =>
    intro fuel s0 s flags hInv hr
    unfold runInsertsFlags at hr
    rcases hins : insertHinted tb fuel s0 v (hf v) with _ | ⟨s1, b⟩
    · rw [hins] at hr
      simp at hr
    · rw [hins] at hr
      simp only [] at hr
      rcases hrest : runInsertsFlags tb fuel hf s1 vs with _ | ⟨s2, bs⟩
      · rw [hrest] at hr
        simp at hr
      · rw [hrest] at hr
        simp only [Option.some.injEq, Prod.mk.injEq] at hr
        obtain ⟨rfl, rfl⟩ := hr
        obtain ⟨hI1, hC1, hN1⟩ := insertHinted_spec hres fuel s0 v s1 b hInv hins
        obtain ⟨hI, hC, hLen, hFlags⟩ := ih fuel s1 s2 bs hI1 hrest
        refine ⟨hI, ?_, by simp [hLen], ?_⟩
        · intro w
          rw [hC w, hC1 w]
          constructor
          · rintro (h | h | h)
            · exact Or.inl (List.mem_cons_of_mem v h)
            · exact Or.inl (by rw [h]; exact List.mem_cons_self v vs)
            · exact Or.inr h
          · rintro (h | h)
            · rcases List.mem_cons.1 h with heq | hm
              · exact Or.inr (Or.inl heq)
              · exact Or.inl hm
            · exact Or.inr (Or.inr h)
        · intro i hi
          cases i with
          | zero =>
            simpa using hN1
          | succ i =>
            have hi' : i < vs.length := by simpa using hi
            have hflag := hFlags i hi'
            rw [List.getD_cons_succ, List.getD_cons_succ, List.take_succ_cons, hflag, hC1]
            rw [List.mem_cons]
            tauto

theorem runInserts_eq_map_flags {α : Type} [DecidableEq α] [Inhabited α]
    (tb fuel : Nat) (hf : α → Nat) :
    ∀ (vs : List α) (s0 : HashSet α),
      runInserts tb fuel hf s0 vs = (runInsertsFlags tb fuel hf s0 vs).map Prod.fst := by
  intro vs
  induction vs with
  | nil =>
    intro s0
    rfl
  | cons v vs ih =>
    intro s0
    unfold runInserts runInsertsFlags
    rcases hins : insertHinted tb fuel s0 v (hf v) with _ | ⟨s1, b⟩
    · simp
    · simp only
      rw [ih s1]
      rcases hrest : runInsertsFlags tb fuel hf s1 vs with _ | ⟨s2, bs⟩ <;> simp

/-! ### C1 and C2 -/

/-- C1: for every finite sequence of insert operations on the
single-threaded engine (with a hasher whose `equal` is equality, consistent
with hash equality, and hash value 0 reserved for empty cells) that completes
without a fatal error, a subsequent `find(v)` returns a valid handle if and
only if `v` was inserted at least once in that sequence. -/
theorem lookup_completeness {α : Type} [DecidableEq α] [Inhabited α]
    (hf : α → Nat) (tb fuel : Nat) (vs : List α) (v : α) (s : HashSet α)
    (hres : ∀ x, hf x ≠ 0)
    (hrun : runInserts tb fuel hf (initHS α) vs = some s) :
    (findHinted tb s v (hf v) = true ↔ v ∈ vs) := by
  rw [runInserts_eq_map_flags] at hrun
  rcases hF : runInsertsFlags tb fuel hf (initHS α) vs with _ | ⟨s2, flags⟩
  · rw [hF] at hrun
    simp at hrun
  · rw [hF] at hrun
    simp only [Option.map_some', Option.some.injEq] at hrun
    obtain ⟨hI, hC, _, _⟩ :=
      runInsertsFlags_spec hres vs fuel (initHS α) s2 flags (initHS_inv hf tb) hF
    subst hrun
    rw [findHinted_iff hI v, hC v]
    exact or_iff_left (initHS_empty v)

/-- Witness for `lookup_completeness`: inserting 1 (hash 2) into the
default-constructed table stores it in cell 0, and `find` then succeeds. -/
theorem lookup_completeness_witness :
    ((∀ x : Nat, (fun y => y + 1) x ≠ 0) ∧
      runInserts 3 4 (fun y => y + 1) (initHS Nat) [1] =
        some ⟨(List.replicate 32 (emptyCellF : Cell Nat)).set 0 ⟨1, 2⟩, 1, 31⟩) ∧
    (findHinted 3
        (⟨(List.replicate 32 (emptyCellF : Cell Nat)).set 0 ⟨1, 2⟩, 1, 31⟩ : HashSet Nat)
        1 ((fun y => y + 1) 1) = true ↔ 1 ∈ [1]) :=
  ⟨⟨fun x => Nat.succ_ne_zero x, by decide⟩,
    lookup_completeness (fun y => y + 1) 3 4 [1] 1
      ⟨(List.replicate 32 (emptyCellF : Cell Nat)).set 0 ⟨1, 2⟩, 1, 31⟩
      (fun x => Nat.succ_ne_zero x) (by decide)⟩

/-- C2: over any completed sequence of inserts on the single-threaded engine,
each inserted value occupies exactly one cell of the final table; the i-th
insert's handle reports `isnew()` exactly when the value did not occur
earlier in the sequence (so exactly one handle per value is new, duplicates
are not an error and report `isnew() = false`); a later re-insert of an
already-present value returns `isnew() = false` and leaves the stored
contents unchanged; and the final contents are exactly the inserted values. -/
theorem at_most_once_insertion {α : Type} [DecidableEq α] [Inhabited α]
    (hf : α → Nat) (tb fuel : Nat) (vs : List α) (s : HashSet α) (flags : List Bool)
    (hres : ∀ x, hf x ≠ 0)
    (hrun : runInsertsFlags tb fuel hf (initHS α) vs = some (s, flags)) :
    (∀ v ∈ vs, ∃! idx, idx < s.table.length ∧ holdsV s.table idx v) ∧
    flags.length = vs.length ∧
    (∀ i, i < vs.length →
      (flags.getD i false = true ↔ vs.getD i default ∉ vs.take i)) ∧
    (∀ v ∈ vs, ∀ (fuel' : Nat) (s' : HashSet α) (b : Bool),
      insertHinted tb fuel' s v (hf v) = some (s', b) →
      b = false ∧ ∀ w, (containsT s'.table w ↔ containsT s.table w)) ∧
    (∀ w, containsT s.table w ↔ w ∈ vs) := by
  obtain ⟨hI, hC, hLen, hFlags⟩ :=
    runInsertsFlags_spec hres vs fuel (initHS α) s flags (initHS_inv hf tb) hrun
  have hCs : ∀ w, containsT s.table w ↔ w ∈ vs := by
    intro w
    rw [hC w]
    exact or_iff_left (initHS_empty w)
  obtain ⟨⟨kk, hkk, hbits, hlen⟩, hconsI, hnodup, hcount⟩ := hI
  refine ⟨?_, hLen, ?_, ?_, hCs⟩
  · intro v hv
    obtain ⟨idx, hidx, hhold⟩ := (hCs v).2 hv
    refine ⟨idx, ⟨hidx, hhold⟩, ?_⟩
    rintro idx' ⟨hidx', hne', hval'⟩
    exact hnodup idx' idx hidx' hidx hne' hhold.1 (by rw [hval', hhold.2])
  · intro i hi
    rw [hFlags i hi]
    constructor
    · intro h hmem
      exact h (Or.inl hmem)
    · rintro h (hmem | hcont)
      · exact h hmem
      · exact initHS_empty _ hcont
  · intro v hv fuel' s' b hins
    have hIS : InvS hf tb s := ⟨⟨kk, hkk, hbits, hlen⟩, hconsI, hnodup, hcount⟩
    obtain ⟨hI', hC', hN'⟩ := insertHinted_spec hres fuel' s v s' b hIS hins
    have hcv : containsT s.table v := (hCs v).2 hv
    constructor
    · rcases b with _ | _
      · rfl
      · exact absurd hcv (hN'.1 rfl)
    · intro w
      rw [hC' w]
      constructor
      · rintro (hw | hw)
        · rw [hw]
          exact hcv
        · exact hw
      · exact fun hw => Or.inr hw

/-- Witness for `at_most_once_insertion`: inserting 1 twice; the load check's
integer division makes the second insert grow the table to 64 cells first,
after which the duplicate is found and reported with `isnew() = false`. -/
theorem at_most_once_insertion_witness :
    ((∀ x : Nat, (fun y => y + 1) x ≠ 0) ∧
      runInsertsFlags 3 4 (fun y => y + 1) (initHS Nat) [1, 1] =
        some (⟨(List.replicate 64 (emptyCellF : Cell Nat)).set 0 ⟨1, 2⟩, 1, 63⟩,
          [true, false])) ∧
    ((∀ v ∈ [1, 1], ∃! idx,
        idx < (⟨(List.replicate 64 (emptyCellF : Cell Nat)).set 0 ⟨1, 2⟩, 1, 63⟩ :
          HashSet Nat).table.length ∧
        holdsV (⟨(List.replicate 64 (emptyCellF : Cell Nat)).set 0 ⟨1, 2⟩, 1, 63⟩ :
          HashSet Nat).table idx v) ∧
      ([true, false] : List Bool).length = ([1, 1] : List Nat).length ∧
      (∀ i, i < ([1, 1] : List Nat).length →
        (([true, false] : List Bool).getD i false = true ↔
          ([1, 1] : List Nat).getD i default ∉ ([1, 1] : List Nat).take i)) ∧
      (∀ v ∈ [1, 1], ∀ (fuel' : Nat)
          (s' : HashSet Nat) (b : Bool),
        insertHinted 3 fuel'
          (⟨(List.replicate 64 (emptyCellF : Cell Nat)).set 0 ⟨1, 2⟩, 1, 63⟩ : HashSet Nat)
          v ((fun y => y + 1) v) = some (s', b) →
        b = false ∧ ∀ w, (containsT s'.table w ↔
          containsT (⟨(List.replicate 64 (emptyCellF : Cell Nat)).set 0 ⟨1, 2⟩, 1,
            63⟩ : HashSet Nat).table w)) ∧
      (∀ w, containsT (⟨(List.replicate 64 (emptyCellF : Cell Nat)).set 0 ⟨1, 2⟩, 1,
          63⟩ : HashSet Nat).table w ↔ w ∈ [1, 1])) :=
  ⟨⟨fun x => Nat.succ_ne_zero x, by decide⟩,
    at_most_once_insertion (fun y => y + 1) 3 4 [1, 1]
      ⟨(List.replicate 64 (emptyCellF : Cell Nat)).set 0 ⟨1, 2⟩, 1, 63⟩
      [true, false] (fun x => Nat.succ_ne_zero x) (by decide)⟩

/-! ### Bit-copy (C7): masks, shifts, and word stores -/

theorem bool_eq_of_iff {a b : Bool} (h : a = true ↔ b = true) : a = b := by
  cases a <;> cases b <;> simp_all

theorem bitshift_lt {t : Nat} (s : Int) (ht : t < 2 ^ 64) : bitshift t s < 2 ^ 64 := by
  unfold bitshift
  split
  · exact Nat.mod_lt _ (by norm_num)
  · calc t >>> (s.toNat) ≤ t := by
          rw [Nat.shiftRight_eq_div_pow]
          exact Nat.div_le_self _ _
      _ < 2 ^ 64 := ht

theorem mask_lt (first count : Nat) : mask first count < 2 ^ 64 := by
  unfold mask
  exact Nat.and_lt_two_pow _ (bitshift_lt _ (by norm_num))

theorem bitshift_allones_testBit (s : Int) (q : Nat) :
    (bitshift (2 ^ 64 - 1) s).testBit q =
      (decide (q < 64) && decide (0 ≤ (q : Int) + s) && decide ((q : Int) + s < 64)) := by
  unfold bitshift
  apply bool_eq_of_iff
  split
  · rw [Nat.testBit_mod_two_pow, Nat.testBit_shiftLeft, Nat.testBit_two_pow_sub_one]
    simp only [Bool.and_eq_true, decide_eq_true_eq, ge_iff_le]
    omega
  · rw [Nat.testBit_shiftRight, Nat.testBit_two_pow_sub_one]
    simp only [Bool.and_eq_true, decide_eq_true_eq]
    omega

theorem mask_testBit {first count : Nat} (h : first + count ≤ 64) (q : Nat) :
    (mask first count).testBit q = (decide (first ≤ q) && decide (q < first + count)) := by
  unfold mask
  apply bool_eq_of_iff
  rw [Nat.testBit_and, bitshift_allones_testBit, bitshift_allones_testBit]
  simp only [Bool.and_eq_true, decide_eq_true_eq]
  omega

theorem xor_ones_testBit {b x : Nat} (hx : x < 2 ^ b) (q : Nat) :
    ((2 ^ b - 1) ^^^ x).testBit q = (decide (q < b) && !(x.testBit q)) := by
  rw [Nat.testBit_xor, Nat.testBit_two_pow_sub_one]
  by_cases hq : q < b
  · simp [hq]
  · have hb : x.testBit q = false := testBit_false_of_lt hx (by omega)
    simp [hq, hb]

theorem bits_testBit {X : Nat} {foff toff w : Nat} (hfo : foff + w ≤ 32) (hto : toff < 32)
    (q : Nat) :
    (bitshift (X &&& (mask foff w % 2 ^ 32)) ((foff : Int) - (toff : Int))).testBit q =
      (decide (toff ≤ q) && decide (q < toff + w) && X.testBit (q - toff + foff)) := by
  have hm : ∀ j, (mask foff w % 2 ^ 32).testBit j =
      (decide (foff ≤ j) && decide (j < foff + w)) := by
    intro j
    rw [Nat.testBit_mod_two_pow, mask_testBit (by omega) j]
    by_cases h1 : j < 32
    · simp [h1]
    · simp [h1, show ¬ j < foff + w by omega]
  have hX : ∀ j, (X &&& (mask foff w % 2 ^ 32)).testBit j =
      (X.testBit j && (decide (foff ≤ j) && decide (j < foff + w))) := by
    intro j
    rw [Nat.testBit_and, hm j]
  unfold bitshift
  by_cases hs : ((foff : Int) - (toff : Int)) < 0
  · rw [if_pos hs]
    have hfo' : foff < toff := by omega
    have hd : (-(((foff : Int) - (toff : Int)))).toNat = toff - foff := by omega
    rw [hd]
    apply bool_eq_of_iff
    rw [Nat.testBit_mod_two_pow, Nat.testBit_shiftLeft, hX]
    simp only [Bool.and_eq_true, decide_eq_true_eq, ge_iff_le]
    constructor
    · rintro ⟨h64, hge, hb, hf1, hf2⟩
      have he : q - (toff - foff) = q - toff + foff := by omega
      rw [he] at hb
      exact ⟨⟨by omega, by omega⟩, hb⟩
    · rintro ⟨⟨h1, h2⟩, hb⟩
      have he : q - (toff - foff) = q - toff + foff := by omega
      refine ⟨by omega, by omega, ?_, by omega, by omega⟩
      rw [he]
      exact hb
  · rw [if_neg hs]
    have hfo' : toff ≤ foff := by omega
    have hd : (((foff : Int) - (toff : Int))).toNat = foff - toff := by omega
    rw [hd]
    apply bool_eq_of_iff
    rw [Nat.testBit_shiftRight, hX]
    simp only [Bool.and_eq_true, decide_eq_true_eq]
    constructor
    · rintro ⟨hb, hf1, hf2⟩
      have he : foff - toff + q = q - toff + foff := by omega
      rw [he] at hb
      exact ⟨⟨by omega, by omega⟩, hb⟩
    · rintro ⟨⟨h1, h2⟩, hb⟩
      have he : foff - toff + q = q - toff + foff := by omega
      refine ⟨?_, by omega, by omega⟩
      rw [he]
      exact hb

theorem dwordAt_testBit {m : Mem} (hm : ∀ k, m k < 2 ^ 32) (i q : Nat) :
    (dwordAt m i).testBit q =
      if q < 32 then (m i).testBit q else (m (i + 1)).testBit (q - 32) := by
  unfold dwordAt
  rw [Nat.add_comm, Nat.testBit_mul_pow_two_add _ (hm i)]

theorem dwordAt_lt {m : Mem} (hm : ∀ k, m k < 2 ^ 32) (i : Nat) :
    dwordAt m i < 2 ^ 64 := by
  unfold dwordAt
  have h1 := hm i
  have h2 := hm (i + 1)
  have : (2 : Nat) ^ 64 = 2 ^ 32 * 2 ^ 32 := by norm_num
  rw [this]
  calc m i + 2 ^ 32 * m (i + 1) ≤ (2 ^ 32 - 1) + 2 ^ 32 * (2 ^ 32 - 1) := by
        have : m (i + 1) ≤ 2 ^ 32 - 1 := by omega
        have hmul : 2 ^ 32 * m (i + 1) ≤ 2 ^ 32 * (2 ^ 32 - 1) :=
          Nat.mul_le_mul_left _ this
        omega
    _ < 2 ^ 32 * 2 ^ 32 := by norm_num

theorem memTestBit_memSet_in (m : Mem) (i v q : Nat) (hq : q < 32) :
    memTestBit (memSet m i v) (32 * i + q) = v.testBit q := by
  unfold memTestBit memSet
  have h1 : (32 * i + q) / 32 = i := by omega
  have h2 : (32 * i + q) % 32 = q := by omega
  rw [h1, h2]
  simp

theorem memTestBit_memSet_out (m : Mem) (i v p : Nat) (hp : p / 32 ≠ i) :
    memTestBit (memSet m i v) p = memTestBit m p := by
  unfold memTestBit memSet
  simp [hp]

theorem memTestBit_setDword_in (m : Mem) (i d q : Nat) (hq : q < 64) :
    memTestBit (setDword m i d) (32 * i + q) = d.testBit q := by
  unfold setDword
  by_cases h32 : q < 32
  · rw [show (32 * i + q) = 32 * i + q from rfl]
    have hne : (32 * i + q) / 32 ≠ i + 1 := by omega
    rw [memTestBit_memSet_out _ _ _ _ hne, memTestBit_memSet_in m i _ q h32]
    rw [Nat.testBit_mod_two_pow]
    simp [h32]
  · have heq : 32 * i + q = 32 * (i + 1) + (q - 32) := by omega
    rw [heq, memTestBit_memSet_in _ _ _ _ (by omega)]
    rw [Nat.testBit_mod_two_pow]
    have : (d / 2 ^ 32).testBit (q - 32) = d.testBit (32 + (q - 32)) := by
      rw [← Nat.shiftRight_eq_div_pow, Nat.testBit_shiftRight]
    rw [this]
    have h2 : 32 + (q - 32) = q := by omega
    rw [h2]
    simp [show q - 32 < 32 by omega]

theorem memTestBit_setDword_out (m : Mem) (i d p : Nat)
    (hp1 : p / 32 ≠ i) (hp2 : p / 32 ≠ i + 1) :
    memTestBit (setDword m i d) p = memTestBit m p := by
  unfold setDword
  rw [memTestBit_memSet_out _ _ _ _ hp2, memTestBit_memSet_out _ _ _ _ hp1]

theorem advance_pos (p : BitPtr) (w : Nat) : (p.advance w).pos = p.pos + w := by
  unfold BitPtr.advance BitPtr.pos
  simp only
  omega

theorem advance_off_lt (p : BitPtr) (w : Nat) : (p.advance w).off < 32 :=
  Nat.mod_lt _ (by norm_num)

theorem memTestBit_at_word (m : Mem) (p : BitPtr) (k : Nat) (h : p.off + k < 32) :
    memTestBit m (p.pos + k) = (m p.word).testBit (p.off + k) := by
  unfold memTestBit BitPtr.pos
  have h1 : (32 * p.word + p.off + k) / 32 = p.word := by omega
  have h2 : (32 * p.word + p.off + k) % 32 = p.off + k := by omega
  rw [show 32 * p.word + p.off + k = 32 * p.word + (p.off + k) by omega] at h1 h2
  rw [show 32 * p.word + p.off + k = 32 * p.word + (p.off + k) by omega, h1, h2]

theorem setDword_wf {m : Mem} (hm : ∀ k, m k < 2 ^ 32) (i d j : Nat) :
    setDword m i d j < 2 ^ 32 := by
  unfold setDword memSet
  by_cases h1 : j = i + 1
  · simp only [h1, if_pos rfl]
    exact Nat.mod_lt _ (by norm_num)
  · rw [if_neg h1]
    by_cases h2 : j = i
    · rw [if_pos h2]
      exact Nat.mod_lt _ (by norm_num)
    · rw [if_neg h2]
      exact hm j

theorem step_dword_spec {src dst : Mem} {f t : BitPtr} {w : Nat}
    (hwf : ∀ i, dst i < 2 ^ 32) (hfo : f.off + w ≤ 32) (ht : t.off < 32) (hw : 1 ≤ w) :
    (∀ k, k < w →
      memTestBit (setDword dst t.word
        ((dwordAt dst t.word &&& ((2 ^ 64 - 1) ^^^ mask t.off w)) |||
          bitshift (src f.word &&& (mask f.off w % 2 ^ 32))
            ((f.off : Int) - (t.off : Int)))) (t.pos + k) =
        (src f.word).testBit (f.off + k)) ∧
    (∀ p, p < t.pos ∨ t.pos + w ≤ p →
      memTestBit (setDword dst t.word
        ((dwordAt dst t.word &&& ((2 ^ 64 - 1) ^^^ mask t.off w)) |||
          bitshift (src f.word &&& (mask f.off w % 2 ^ 32))
            ((f.off : Int) - (t.off : Int)))) p = memTestBit dst p) := by
  have hm64 : t.off + w ≤ 64 := by omega
  have hdbit : ∀ q, ((dwordAt dst t.word &&& ((2 ^ 64 - 1) ^^^ mask t.off w)) |||
      bitshift (src f.word &&& (mask f.off w % 2 ^ 32))
        ((f.off : Int) - (t.off : Int))).testBit q =
      (((dwordAt dst t.word).testBit q && (decide (q < 64) && !(decide (t.off ≤ q) &&
          decide (q < t.off + w)))) ||
        (decide (t.off ≤ q) && decide (q < t.off + w) &&
          (src f.word).testBit (q - t.off + f.off))) := by
    intro q
    rw [Nat.testBit_or, Nat.testBit_and, xor_ones_testBit (mask_lt _ _) q,
      mask_testBit hm64 q, bits_testBit hfo ht q]
  constructor
  · intro k hk
    have hp : t.pos + k = 32 * t.word + (t.off + k) := by
      unfold BitPtr.pos
      omega
    rw [hp, memTestBit_setDword_in _ _ _ _ (by omega), hdbit]
    simp [show t.off ≤ t.off + k by omega, show t.off + k < t.off + w by omega,
      show t.off + k - t.off + f.off = f.off + k by omega]
    rw [Nat.add_comm k f.off]
  · intro p hp
    by_cases hA : p / 32 = t.word
    · have hlo : 32 * t.word ≤ p := by omega
      have hhi : p < 32 * t.word + 64 := by omega
      have hout : p - 32 * t.word < t.off ∨ t.off + w ≤ p - 32 * t.word := by
        unfold BitPtr.pos at hp
        omega
      rw [show p = 32 * t.word + (p - 32 * t.word) by omega,
        memTestBit_setDword_in _ _ _ _ (by omega), hdbit,
        dwordAt_testBit hwf t.word]
      unfold memTestBit
      have hq32 : p - 32 * t.word < 32 := by omega
      rw [if_pos hq32,
        show (32 * t.word + (p - 32 * t.word)) / 32 = t.word by omega,
        show (32 * t.word + (p - 32 * t.word)) % 32 = p - 32 * t.word by omega]
      rcases hout with hout | hout
      · simp [show ¬ t.off ≤ p - 32 * t.word by omega, show p - 32 * t.word < 64 by omega]
      · simp [show ¬ p - 32 * t.word < t.off + w by omega,
          show p - 32 * t.word < 64 by omega]
    · by_cases hB : p / 32 = t.word + 1
      · have hlo : 32 * t.word ≤ p := by omega
        have hhi : p < 32 * t.word + 64 := by omega
        have hout : p - 32 * t.word < t.off ∨ t.off + w ≤ p - 32 * t.word := by
          unfold BitPtr.pos at hp
          omega
        have hq32 : ¬ p - 32 * t.word < 32 := by omega
        rw [show p = 32 * t.word + (p - 32 * t.word) by omega,
          memTestBit_setDword_in _ _ _ _ (by omega), hdbit,
          dwordAt_testBit hwf t.word]
        unfold memTestBit
        rw [if_neg hq32,
          show (32 * t.word + (p - 32 * t.word)) / 32 = t.word + 1 by omega,
          show (32 * t.word + (p - 32 * t.word)) % 32 = p - 32 * t.word - 32 by omega]
        rcases hout with hout | hout
        · simp [show ¬ t.off ≤ p - 32 * t.word by omega,
            show p - 32 * t.word < 64 by omega]
        · simp [show ¬ p - 32 * t.word < t.off + w by omega,
            show p - 32 * t.word < 64 by omega]
      · exact memTestBit_setDword_out _ _ _ _ hA hB

theorem step_word_spec {src dst : Mem} {f t : BitPtr} {w : Nat}
    (hfo : f.off + w ≤ 32) (ht : t.off < 32) (hw : 1 ≤ w) (htw : t.off + w ≤ 32) :
    (∀ k, k < w →
      memTestBit (memSet dst t.word
        ((dst t.word &&& ((2 ^ 32 - 1) ^^^ mask t.off w % 2 ^ 32)) |||
          bitshift (src f.word &&& (mask f.off w % 2 ^ 32))
            ((f.off : Int) - (t.off : Int)) % 2 ^ 32)) (t.pos + k) =
        (src f.word).testBit (f.off + k)) ∧
    (∀ p, p < t.pos ∨ t.pos + w ≤ p →
      memTestBit (memSet dst t.word
        ((dst t.word &&& ((2 ^ 32 - 1) ^^^ mask t.off w % 2 ^ 32)) |||
          bitshift (src f.word &&& (mask f.off w % 2 ^ 32))
            ((f.off : Int) - (t.off : Int)) % 2 ^ 32)) p = memTestBit dst p) := by
  have hm64 : t.off + w ≤ 64 := by omega
  have hnw : ∀ q, ((dst t.word &&& ((2 ^ 32 - 1) ^^^ mask t.off w % 2 ^ 32)) |||
      bitshift (src f.word &&& (mask f.off w % 2 ^ 32))
        ((f.off : Int) - (t.off : Int)) % 2 ^ 32).testBit q =
      (((dst t.word).testBit q && (decide (q < 32) && !(decide (q < 32) &&
          (decide (t.off ≤ q) && decide (q < t.off + w))))) ||
        (decide (q < 32) && (decide (t.off ≤ q) && decide (q < t.off + w) &&
          (src f.word).testBit (q - t.off + f.off)))) := by
    intro q
    rw [Nat.testBit_or, Nat.testBit_and,
      xor_ones_testBit (Nat.mod_lt _ (by norm_num : (0:Nat) < 2 ^ 32)) q,
      Nat.testBit_mod_two_pow, mask_testBit hm64 q,
      Nat.testBit_mod_two_pow, bits_testBit hfo ht q]
  constructor
  · intro k hk
    have hp : t.pos + k = 32 * t.word + (t.off + k) := by
      unfold BitPtr.pos
      omega
    rw [hp, memTestBit_memSet_in _ _ _ _ (by omega), hnw]
    simp [show t.off ≤ t.off + k by omega, show t.off + k < t.off + w by omega,
      show t.off + k < 32 by omega, show t.off + k - t.off + f.off = f.off + k by omega]
    rw [Nat.add_comm k f.off]
  · intro p hp
    by_cases hA : p / 32 = t.word
    · have hlo : 32 * t.word ≤ p := by omega
      have hout : p - 32 * t.word < t.off ∨ t.off + w ≤ p - 32 * t.word := by
        unfold BitPtr.pos at hp
        omega
      have hq32 : p - 32 * t.word < 32 := by omega
      rw [show p = 32 * t.word + (p - 32 * t.word) by omega,
        memTestBit_memSet_in _ _ _ _ hq32, hnw]
      unfold memTestBit
      rw [show (32 * t.word + (p - 32 * t.word)) / 32 = t.word by omega,
        show (32 * t.word + (p - 32 * t.word)) % 32 = p - 32 * t.word by omega]
      rcases hout with hout | hout
      · simp [show ¬ t.off ≤ p - 32 * t.word by omega, hq32]
      · simp [show ¬ p - 32 * t.word < t.off + w by omega, hq32]
    · exact memTestBit_memSet_out _ _ _ _ hA

theorem memSet_wf {m : Mem} (hm : ∀ k, m k < 2 ^ 32) {v : Nat} (hv : v < 2 ^ 32)
    (i j : Nat) : memSet m i v j < 2 ^ 32 := by
  unfold memSet
  by_cases h : j = i
  · rw [if_pos h]
    exact hv
  · rw [if_neg h]
    exact hm j

theorem bitcopy_glue (src : Mem) (f t : BitPtr) (n w : Nat) (dst dst' R : Mem)
    (hw1 : 1 ≤ w) (hwn : w ≤ n) (hfw : f.off + w ≤ 32)
    (hstep_c : ∀ k, k < w →
      memTestBit dst' (t.pos + k) = (src f.word).testBit (f.off + k))
    (hstep_p : ∀ p, p < t.pos ∨ t.pos + w ≤ p → memTestBit dst' p = memTestBit dst p)
    (ihc : ∀ k, k < n - w →
      memTestBit R ((t.advance w).pos + k) = memTestBit src ((f.advance w).pos + k))
    (ihp : ∀ p, p < (t.advance w).pos ∨ (t.advance w).pos + (n - w) ≤ p →
      memTestBit R p = memTestBit dst' p) :
    (∀ k, k < n → memTestBit R (t.pos + k) = memTestBit src (f.pos + k)) ∧
    (∀ p, p < t.pos ∨ t.pos + n ≤ p → memTestBit R p = memTestBit dst p) := by
  constructor
  · intro k hk
    by_cases hkw : k < w
    · rw [ihp (t.pos + k) (Or.inl (by rw [advance_pos]; omega)), hstep_c k hkw,
        ← memTestBit_at_word src f k (by omega)]
    · rw [show t.pos + k = (t.advance w).pos + (k - w) by rw [advance_pos]; omega,
        show f.pos + k = (f.advance w).pos + (k - w) by rw [advance_pos]; omega]
      exact ihc (k - w) (by omega)
  · intro p hp
    rw [ihp p (by rw [advance_pos]; omega)]
    refine hstep_p p ?_
    rcases hp with h | h
    · exact Or.inl h
    · exact Or.inr (by omega)

theorem bitcopyF_spec (fuel : Nat) : ∀ (src dst : Mem) (f t : BitPtr) (n : Nat),
    n ≤ fuel → (∀ i, dst i < 2 ^ 32) → f.off < 32 → t.off < 32 →
    ((∀ i, bitcopyF fuel src f dst t n i < 2 ^ 32) ∧
     (∀ k, k < n →
        memTestBit (bitcopyF fuel src f dst t n) (t.pos + k) = memTestBit src (f.pos + k)) ∧
     (∀ p, p < t.pos ∨ t.pos + n ≤ p →
        memTestBit (bitcopyF fuel src f dst t n) p = memTestBit dst p)) := by
  induction fuel with
  | zero =>
    intro src dst f t n hn hwf hf ht
    have hn0 : n = 0 := by omega
    subst hn0
    exact ⟨hwf, fun k hk => absurd hk (Nat.not_lt_zero k), fun p _ => rfl⟩
  | succ fuel ih =>
    intro src dst f t n hn hwf hf ht
    by_cases hn0 : n = 0
    · subst hn0
      simp only [bitcopyF, if_pos rfl]
      exact ⟨hwf, fun k hk => absurd hk (Nat.not_lt_zero k), fun p _ => rfl⟩
    · have hw1 : 1 ≤ min (32 - f.off) n := le_min (by omega) (by omega)
      have hwle : min (32 - f.off) n ≤ 32 - f.off := Nat.min_le_left _ _
      have hwlen : min (32 - f.off) n ≤ n := Nat.min_le_right _ _
      simp only [bitcopyF]
      rw [if_neg hn0]
      by_cases hbr : 32 < t.off + n
      · rw [if_pos hbr]
        obtain ⟨hc, hpres⟩ :=
          @step_dword_spec src dst f t (min (32 - f.off) n) hwf (by omega) ht hw1
        obtain ⟨ihwf, ihc, ihp⟩ :=
          ih src _ (f.advance (min (32 - f.off) n)) (t.advance (min (32 - f.off) n))
            (n - min (32 - f.off) n) (by omega) (fun i => setDword_wf hwf _ _ i)
            (advance_off_lt f _) (advance_off_lt t _)
        exact ⟨ihwf,
          bitcopy_glue src f t n (min (32 - f.off) n) dst _ _ hw1 hwlen (by omega)
            hc hpres ihc ihp⟩
      · rw [if_neg hbr]
        have hnwlt : ((dst t.word &&&
            ((2 ^ 32 - 1) ^^^ mask t.off (min (32 - f.off) n) % 2 ^ 32)) |||
              bitshift (src f.word &&& (mask f.off (min (32 - f.off) n) % 2 ^ 32))
                ((f.off : Int) - (t.off : Int)) % 2 ^ 32) < 2 ^ 32 :=
          Nat.or_lt_two_pow
            (Nat.and_lt_two_pow _
              (Nat.xor_lt_two_pow (by norm_num) (Nat.mod_lt _ (by norm_num))))
            (Nat.mod_lt _ (by norm_num))
        obtain ⟨hc, hpres⟩ :=
          @step_word_spec src dst f t (min (32 - f.off) n) (by omega) ht hw1 (by omega)
        obtain ⟨ihwf, ihc, ihp⟩ :=
          ih src _ (f.advance (min (32 - f.off) n)) (t.advance (min (32 - f.off) n))
            (n - min (32 - f.off) n) (by omega) (fun i => memSet_wf hwf hnwlt _ i)
            (advance_off_lt f _) (advance_off_lt t _)
        exact ⟨ihwf,
          bitcopy_glue src f t n (min (32 - f.off) n) dst _ _ hw1 hwlen (by omega)
            hc hpres ihc ihp⟩

/-- C7: bit-copy round-trip with frame. For every bit count `n`, source and
destination bit pointers with offsets in `[0, 32)`, and a well-formed
destination memory (each 32-bit word below `2^32`), after
`bitcopy(from, to, n)` the `n` destination bits read back equal the `n`
source bits, and every destination bit outside `[to.pos, to.pos + n)` holds
its previous value. -/
theorem bitcopy_roundtrip (src dst : Mem) (f t : BitPtr) (n : Nat)
    (hwf : ∀ i, dst i < 2 ^ 32) (hf : f.off < 32) (ht : t.off < 32) :
    (∀ k, k < n →
      memTestBit (bitcopy src f dst t n) (t.pos + k) = memTestBit src (f.pos + k)) ∧
    (∀ p, p < t.pos ∨ t.pos + n ≤ p →
      memTestBit (bitcopy src f dst t n) p = memTestBit dst p) := by
  obtain ⟨_, h1, h2⟩ := bitcopyF_spec n src dst f t n le_rfl hwf hf ht
  exact ⟨h1, h2⟩

/-- Witness for C7 at a concrete input: copying 20 bits from bit 5 of a
source memory into bit 17 of a destination memory (the copy crosses the
destination's first word boundary, exercising the 64-bit `dword()` store). -/
theorem bitcopy_roundtrip_witness :
    (∀ i, (fun j => if j = 0 then 4294967295 else 0 : Mem) i < 2 ^ 32) ∧
    (BitPtr.off ⟨0, 5⟩ < 32 ∧ BitPtr.off ⟨0, 17⟩ < 32) ∧
    ((∀ k, k < 20 →
      memTestBit (bitcopy (fun j => if j = 0 then 3735928559 else if j = 1 then 305419896 else 0)
        ⟨0, 5⟩ (fun j => if j = 0 then 4294967295 else 0) ⟨0, 17⟩ 20)
        (BitPtr.pos ⟨0, 17⟩ + k) =
      memTestBit (fun j => if j = 0 then 3735928559 else if j = 1 then 305419896 else 0)
        (BitPtr.pos ⟨0, 5⟩ + k)) ∧
    (∀ p, p < BitPtr.pos ⟨0, 17⟩ ∨ BitPtr.pos ⟨0, 17⟩ + 20 ≤ p →
      memTestBit (bitcopy (fun j => if j = 0 then 3735928559 else if j = 1 then 305419896 else 0)
        ⟨0, 5⟩ (fun j => if j = 0 then 4294967295 else 0) ⟨0, 17⟩ 20) p =
      memTestBit (fun j => if j = 0 then 4294967295 else 0) p)) :=
  ⟨fun i => by
      show (if i = 0 then 4294967295 else 0) < 2 ^ 32
      split <;> norm_num,
   ⟨by decide, by decide⟩,
   bitcopy_roundtrip
     (fun j => if j = 0 then 3735928559 else if j = 1 then 305419896 else 0)
     (fun j => if j = 0 then 4294967295 else 0) ⟨0, 5⟩ ⟨0, 17⟩ 20
     (fun i => by
       show (if i = 0 then 4294967295 else 0) < 2 ^ 32
       split <;> norm_num)
     (by decide) (by decide)⟩

end Bricks
